import Mathlib

/-!
Shallow embedding of dmcache-recovery's persistent hash index (src/index.rs)
and of the positional-voting cache mapper (src/cache_guess_mapping.rs).

Modelling conventions:

* The memory-mapped index file is a total function `Mem` from byte address to
  byte value; the open path additionally carries an explicit file length,
  because `Index::open` can index the mapped region out of bounds.
* Machine integers are `Nat`, reduced modulo `2 ^ 64` / `2 ^ 128` exactly where
  the Rust code wraps (`u64` stores, `u128::wrapping_mul`).
* `u64::from_ne_bytes` / the verbatim byte copies of `set_entry` are fixed to
  little-endian.  Build and query use the same byte order on both sides, so no
  claim depends on the choice.
* The lazy iterator of `Index::get` and the unbounded slot search of
  `IndexBuilder::add` are modelled with explicit fuel.  A diverging Rust
  iterator corresponds to a result that never stabilises as fuel grows
  (`get`), or to the slot search returning `none` for every fuel (`add`).
* Digests are byte lists (entries of real digests are `u8`, hence `< 256`;
  theorems that need this carry it as a hypothesis).
-/

def BLOCK_SIZE_OFFSET : Nat := 48

def CAPACITY_OFFSET : Nat := 56

def BITSET_OFFSET : Nat := 64

def PREAMBLE_SIZE : Nat := 48

def U64_SIZE : Nat := 8

/-- The 48-byte format marker: the ASCII bytes of
`INDEX / dmcache-recovery` followed by a newline and 23 NUL bytes. -/
def PREAMBLE : List Nat :=
  [73, 78, 68, 69, 88, 32, 47, 32, 100, 109, 99, 97, 99, 104, 101, 45,
   114, 101, 99, 111, 118, 101, 114, 121, 10] ++ List.replicate 23 0

/-- A memory-mapped byte region: total map from byte address to byte value. -/
def Mem : Type := Nat → Nat

/-- A freshly created file: `File::set_len` zero-fills. -/
def zeroMem : Mem := fun _ => 0

/-- Store the 8 little-endian bytes of a `u64` value at address `a`
(`copy_from_slice(&v.to_le_bytes())`). -/
def writeU64 (m : Mem) (a v : Nat) : Mem :=
  fun x => if a ≤ x ∧ x < a + 8 then v / 256 ^ (x - a) % 256 else m x

/-- Store a list of bytes starting at address `a` (`copy_from_slice`). -/
def writeBytesList (m : Mem) (a : Nat) (bs : List Nat) : Mem :=
  fun x => if a ≤ x ∧ x < a + bs.length then bs.getD (x - a) 0 else m x

/-- Read `n` bytes at address `a` as a little-endian number. -/
def readLE (m : Mem) (a : Nat) : Nat → Nat
  | 0 => 0
  | k + 1 => m a + 256 * readLE m (a + 1) k

/-- `u64::from_le_bytes` of the 8 bytes at address `a`. -/
def readU64 (m : Mem) (a : Nat) : Nat := readLE m a 8

/-- The `n` bytes starting at address `a`, as a list (a byte-slice read). -/
def readBytes (m : Mem) (a n : Nat) : List Nat :=
  (List.range n).map fun k => m (a + k)

/-- Little-endian value of a byte list (used for `from_le_bytes` on digest
chunks; a list shorter than the machine width reads as if zero-padded). -/
def leVal : List Nat → Nat
  | [] => 0
  | b :: rest => b + 256 * leVal rest

/-- The `k`-th 64-bit hash word of a digest: `write_bytes` copies the next up
to 8 digest bytes into a zero-filled buffer, and `u64::from_ne_bytes` reads it
back; for a 20-byte digest the third word is zero-padded past byte 20. -/
def hash_word (h : List Nat) (k : Nat) : Nat := leVal ((h.drop (8 * k)).take 8)

/-- `read_hash_prefix`: the first 16 digest bytes as an unsigned little-endian
128-bit integer. -/
def read_hash_prefix (h : List Nat) : Nat := leVal (h.take 16)

/-- `next_hash_prefix`: `u128::wrapping_mul(previous, 31)`. -/
def next_hash_prefix (p : Nat) : Nat := p * 31 % 2 ^ 128

/-- The probe prefix after `i` applications of `next_hash_prefix`
(the `iter::successors` chain of `read_hash_indices`). -/
def hash_prefix_at (h : List Nat) : Nat → Nat
  | 0 => read_hash_prefix h
  | i + 1 => next_hash_prefix (hash_prefix_at h i)

/-- The candidate slot at probe step `i`: `prefix % capacity`
(`read_hash_indices`). -/
def probeSlot (h : List Nat) (capacity i : Nat) : Nat :=
  hash_prefix_at h i % capacity

/-- The `Layout` struct of src/index.rs. -/
structure Layout where
  capacity : Nat
  hash1_offset : Nat
  hash2_offset : Nat
  hash3_offset : Nat
  value_offset : Nat
  min_file_size : Nat

/-- `Layout::from_capacity`: `hash1_offset` is `BITSET_OFFSET` plus
`capacity.div_ceil(8).next_multiple_of(8)`; each further array is
`8 * capacity` bytes. -/
def Layout.from_capacity (capacity : Nat) : Layout :=
  let hash1_offset := BITSET_OFFSET + ((capacity + 7) / 8 + 7) / 8 * 8
  let hash2_offset := hash1_offset + U64_SIZE * capacity
  let hash3_offset := hash2_offset + U64_SIZE * capacity
  let value_offset := hash3_offset + U64_SIZE * capacity
  let min_file_size := value_offset + U64_SIZE * capacity
  ⟨capacity, hash1_offset, hash2_offset, hash3_offset, value_offset, min_file_size⟩

/-- `Layout::from_item_count`: capacity is `item_count + item_count / 2`. -/
def Layout.from_item_count (item_count : Nat) : Layout :=
  Layout.from_capacity (item_count + item_count / 2)

/-- `Layout::is_used`: bit `index % 8` (MSB-first) of bitset byte
`BITSET_OFFSET + index / 8`. -/
def Layout.is_used (_l : Layout) (m : Mem) (index : Nat) : Bool :=
  m (BITSET_OFFSET + index / 8) &&& (128 >>> (index % 8)) != 0

/-- `Layout::set_used`: or the bit mask into the bitset byte. -/
def Layout.set_used (_l : Layout) (m : Mem) (index : Nat) : Mem :=
  fun x =>
    if x = BITSET_OFFSET + index / 8 then
      m (BITSET_OFFSET + index / 8) ||| (128 >>> (index % 8))
    else m x

/-- `Layout::set_entry`: mark the slot used, then store the three hash words
and the value word of the entry. -/
def Layout.set_entry (l : Layout) (m : Mem) (index : Nat) (h : List Nat)
    (value : Nat) : Mem :=
  let m1 := l.set_used m index
  let m2 := writeU64 m1 (l.hash1_offset + U64_SIZE * index) (hash_word h 0)
  let m3 := writeU64 m2 (l.hash2_offset + U64_SIZE * index) (hash_word h 1)
  let m4 := writeU64 m3 (l.hash3_offset + U64_SIZE * index) (hash_word h 2)
  writeU64 m4 (l.value_offset + U64_SIZE * index) value

/-- `Layout::get_hash1`. -/
def Layout.get_hash1 (l : Layout) (m : Mem) (index : Nat) : Nat :=
  readU64 m (l.hash1_offset + U64_SIZE * index)

/-- `Layout::get_hash2`. -/
def Layout.get_hash2 (l : Layout) (m : Mem) (index : Nat) : Nat :=
  readU64 m (l.hash2_offset + U64_SIZE * index)

/-- `Layout::get_hash3`. -/
def Layout.get_hash3 (l : Layout) (m : Mem) (index : Nat) : Nat :=
  readU64 m (l.hash3_offset + U64_SIZE * index)

/-- `Layout::get_value`. -/
def Layout.get_value (l : Layout) (m : Mem) (index : Nat) : Nat :=
  readU64 m (l.value_offset + U64_SIZE * index)

/-- `Layout::set_preamble`: write the 48-byte marker at offset 0. -/
def Layout.set_preamble (m : Mem) : Mem := writeBytesList m 0 PREAMBLE

/-- `Layout::get_capacity` (little-endian `u64` at offset 56). -/
def Layout.get_capacity (m : Mem) : Nat := readU64 m CAPACITY_OFFSET

/-- `Layout::get_block_size` (little-endian `u64` at offset 48). -/
def Layout.get_block_size (m : Mem) : Nat := readU64 m BLOCK_SIZE_OFFSET

/-- The read-phase `Index`: the mapped region plus the capacity read back from
the header (the block size field is also read on open but is irrelevant to
probing, so it is not carried here). -/
structure Index where
  mem : Mem
  capacity : Nat

/-- `Index::hash_matches`: the three stored hash words must all equal the
corresponding query words (the Rust code early-returns on the first
mismatch; `&&` is the same short-circuit). -/
def Index.hash_matches (idx : Index) (index : Nat) (h : List Nat) : Bool :=
  let l := Layout.from_capacity idx.capacity
  l.get_hash1 idx.mem index == hash_word h 0 &&
  l.get_hash2 idx.mem index == hash_word h 1 &&
  l.get_hash3 idx.mem index == hash_word h 2

/-- The probe walk of `Index::get` from probe step `i` on, with fuel: at each
step, stop at an unused slot; at a used slot, yield the value word when the
stored hash words equal the query digest, and continue either way. -/
def Index.getAux (idx : Index) (h : List Nat) : Nat → Nat → List Nat
  | _, 0 => []
  | i, fuel + 1 =>
    let l := Layout.from_capacity idx.capacity
    let j := probeSlot h idx.capacity i
    if l.is_used idx.mem j then
      (if idx.hash_matches j h then [l.get_value idx.mem j] else []) ++
        idx.getAux h (i + 1) fuel
    else []

/-- `Index::get`: the yields of the probe walk within the first `fuel` probe
steps.  The Rust iterator's output is the limit of this over all fuels; once a
probe step hits an unused slot the result no longer depends on fuel. -/
def Index.get (idx : Index) (h : List Nat) (fuel : Nat) : List Nat :=
  idx.getAux h 0 fuel

/-- Outcome of `Index::open` / `Layout::from_file` on a file of a given
length.  `oobPanic` models an out-of-bounds slice of the mapped region, which
aborts instead of returning an `io::Result` error. -/
inductive OpenResult where
  | oobPanic
  | corruptIndex
  | truncatedIndex
  | ok (idx : Index)

/-- `Index::open` on a file with byte contents `m` and length `len`:
`check_preamble` slices the first 48 bytes (out of bounds if the file is
shorter), a wrong marker is `CorruptIndex`, `get_capacity` slices bytes
56..64 (out of bounds if the file is shorter than 64), and a file shorter
than the recomputed layout is `TruncatedIndex`. -/
def Index.open_file (m : Mem) (len : Nat) : OpenResult :=
  if len < PREAMBLE_SIZE then .oobPanic
  else if readBytes m 0 PREAMBLE_SIZE ≠ PREAMBLE then .corruptIndex
  else if len < CAPACITY_OFFSET + U64_SIZE then .oobPanic
  else
    let capacity := Layout.get_capacity m
    let layout := Layout.from_capacity capacity
    if len < layout.min_file_size then .truncatedIndex
    else .ok ⟨m, capacity⟩

/-- The `IndexBuilder` struct. -/
structure IndexBuilder where
  mem : Mem
  layout : Layout
  closed : Bool

/-- `IndexBuilder::new`: zero-filled file of `min_file_size` bytes, then the
block size and the capacity are stored in the header (the marker is not). -/
def IndexBuilder.new (item_count block_size : Nat) : IndexBuilder :=
  let layout := Layout.from_item_count item_count
  let m1 := writeU64 zeroMem BLOCK_SIZE_OFFSET block_size
  let m2 := writeU64 m1 CAPACITY_OFFSET layout.capacity
  ⟨m2, layout, false⟩

/-- The slot search of `IndexBuilder::add`: skip used slots along the probe
sequence from step `i`; `none` models fuel running out (the Rust search is
unbounded and diverges when every probe step hits a used slot). -/
def findFreeSlot (l : Layout) (m : Mem) (h : List Nat) : Nat → Nat → Option Nat
  | _, 0 => none
  | i, fuel + 1 =>
    let j := probeSlot h l.capacity i
    if l.is_used m j then findFreeSlot l m h (i + 1) fuel else some j

/-- `IndexBuilder::add`: write the entry into the first unused slot of the
digest's probe sequence.  Adding to a closed builder is a fatal precondition
violation (modelled as `none`, like divergence of the slot search). -/
def IndexBuilder.add (b : IndexBuilder) (h : List Nat) (value : Nat)
    (fuel : Nat) : Option IndexBuilder :=
  if b.closed then none
  else
    (findFreeSlot b.layout b.mem h 0 fuel).map fun j =>
      ⟨b.layout.set_entry b.mem j h value, b.layout, b.closed⟩

/-- `IndexBuilder::finish`: close the builder and write the commit marker. -/
def IndexBuilder.finish (b : IndexBuilder) : IndexBuilder :=
  ⟨Layout.set_preamble b.mem, b.layout, true⟩

/-- Perform a sequence of `add` calls (all with the same search fuel),
propagating divergence. -/
def addAll (b : IndexBuilder) (items : List (List Nat × Nat)) (fuel : Nat) :
    Option IndexBuilder :=
  match items with
  | [] => some b
  | (h, v) :: rest => (b.add h v fuel).bind fun b2 => addAll b2 rest fuel

/-! ### Basic facts about the byte-memory model -/

theorem writeU64_apply_out (m : Mem) (a v x : Nat) (hx : x < a ∨ a + 8 ≤ x) :
    writeU64 m a v x = m x := by
  simp only [writeU64]
  rw [if_neg (by omega)]

theorem writeBytesList_apply_out (m : Mem) (a : Nat) (bs : List Nat) (x : Nat)
    (hx : x < a ∨ a + bs.length ≤ x) : writeBytesList m a bs x = m x := by
  simp only [writeBytesList]
  rw [if_neg (by omega)]

theorem readLE_congr {m1 m2 : Mem} {a n : Nat}
    (h : ∀ k, k < n → m1 (a + k) = m2 (a + k)) :
    readLE m1 a n = readLE m2 a n := by
  induction n generalizing a with
  | zero => rfl
  | succ k ih =>
    simp only [readLE]
    have h0 : m1 a = m2 a := by simpa using h 0 (by omega)
    have hrest : readLE m1 (a + 1) k = readLE m2 (a + 1) k := by
      refine ih fun j hj => ?_
      have := h (j + 1) (by omega)
      simpa [Nat.add_assoc, Nat.add_comm 1 j] using this
    rw [h0, hrest]

theorem readLE_of_bytes (n : Nat) : ∀ (m : Mem) (a w : Nat),
    (∀ k, k < n → m (a + k) = w / 256 ^ k % 256) →
    readLE m a n = w % 256 ^ n := by
  induction n with
  | zero => intro m a w _; simp [readLE, Nat.mod_one]
  | succ k ih =>
    intro m a w h
    have h0 : m a = w % 256 := by simpa using h 0 (by omega)
    have hrest : readLE m (a + 1) k = w / 256 % 256 ^ k := by
      refine ih _ _ _ fun j hj => ?_
      have hj' := h (j + 1) (by omega)
      have : w / 256 ^ (j + 1) = w / 256 / 256 ^ j := by
        rw [Nat.div_div_eq_div_mul, Nat.pow_succ, Nat.mul_comm 256 (256 ^ j)]
      rw [← this]
      simpa [Nat.add_assoc, Nat.add_comm 1 j] using hj'
    rw [readLE, h0, hrest, Nat.pow_succ, Nat.mul_comm (256 ^ k) 256, Nat.mod_mul]

theorem readLE_writeU64 (m : Mem) (a v : Nat) :
    readLE (writeU64 m a v) a 8 = v % 2 ^ 64 := by
  have : readLE (writeU64 m a v) a 8 = v % 256 ^ 8 := by
    refine readLE_of_bytes 8 _ _ _ fun k hk => ?_
    simp only [writeU64]
    rw [if_pos (by omega), show a + k - a = k from by omega]
  simpa [show (256 : Nat) ^ 8 = 2 ^ 64 from by norm_num] using this

theorem readU64_writeU64 (m : Mem) (a v : Nat) (hv : v < 2 ^ 64) :
    readU64 (writeU64 m a v) a = v := by
  rw [readU64, readLE_writeU64, Nat.mod_eq_of_lt hv]

theorem readLE_writeU64_out (m : Mem) (a v b n : Nat)
    (hd : b + n ≤ a ∨ a + 8 ≤ b) :
    readLE (writeU64 m a v) b n = readLE m b n := by
  refine readLE_congr fun k hk => ?_
  exact writeU64_apply_out m a v (b + k) (by omega)

theorem readLE_writeBytesList_out (m : Mem) (a : Nat) (bs : List Nat)
    (b n : Nat) (hd : b + n ≤ a ∨ a + bs.length ≤ b) :
    readLE (writeBytesList m a bs) b n = readLE m b n := by
  refine readLE_congr fun k hk => ?_
  exact writeBytesList_apply_out m a bs (b + k) (by omega)

theorem readBytes_length (m : Mem) (a n : Nat) : (readBytes m a n).length = n := by
  simp [readBytes]

theorem readBytes_writeBytesList (m : Mem) (a : Nat) (bs : List Nat) :
    readBytes (writeBytesList m a bs) a bs.length = bs := by
  refine List.ext_getElem (by simp [readBytes]) fun i h1 h2 => ?_
  simp only [readBytes, List.getElem_map, List.getElem_range]
  simp only [writeBytesList]
  rw [if_pos (by omega)]
  rw [Nat.add_sub_cancel_left, List.getD_eq_getElem bs 0 h2]

theorem readBytes_congr {m1 m2 : Mem} {a n : Nat}
    (h : ∀ k, k < n → m1 (a + k) = m2 (a + k)) :
    readBytes m1 a n = readBytes m2 a n := by
  refine List.ext_getElem (by simp [readBytes]) fun i h1 h2 => ?_
  simp only [readBytes, List.getElem_map, List.getElem_range]
  exact h i (by simpa [readBytes] using h1)

/-! ### Bitset lemmas -/

theorem mask_eq_two_pow (k : Nat) (hk : k < 8) : 128 >>> k = 2 ^ (7 - k) := by
  interval_cases k <;> rfl

theorem is_used_eq_testBit (l : Layout) (m : Mem) (j : Nat) :
    l.is_used m j = (m (BITSET_OFFSET + j / 8)).testBit (7 - j % 8) := by
  rw [Layout.is_used, mask_eq_two_pow _ (Nat.mod_lt _ (by omega)), Nat.and_two_pow]
  cases hb : (m (BITSET_OFFSET + j / 8)).testBit (7 - j % 8) <;> simp

theorem is_used_congr {l : Layout} {m1 m2 : Mem} {j : Nat}
    (h : m1 (BITSET_OFFSET + j / 8) = m2 (BITSET_OFFSET + j / 8)) :
    l.is_used m1 j = l.is_used m2 j := by
  simp [Layout.is_used, h]

theorem set_used_apply_ne (l : Layout) (m : Mem) (j x : Nat)
    (hx : x ≠ BITSET_OFFSET + j / 8) : l.set_used m j x = m x := by
  simp only [Layout.set_used]
  rw [if_neg hx]

theorem is_used_set_used_self (l : Layout) (m : Mem) (j : Nat) :
    l.is_used (l.set_used m j) j = true := by
  rw [is_used_eq_testBit]
  simp only [Layout.set_used, if_pos rfl, if_true]
  rw [mask_eq_two_pow _ (Nat.mod_lt _ (by omega)), Nat.testBit_or,
    Nat.testBit_two_pow_self]
  simp

theorem is_used_set_used_ne (l : Layout) (m : Mem) (j j' : Nat) (hne : j' ≠ j) :
    l.is_used (l.set_used m j) j' = l.is_used m j' := by
  by_cases hb : BITSET_OFFSET + j' / 8 = BITSET_OFFSET + j / 8
  · rw [is_used_eq_testBit, is_used_eq_testBit]
    simp only [Layout.set_used, hb, if_pos rfl, if_true]
    rw [mask_eq_two_pow (j % 8) (Nat.mod_lt _ (by omega)), Nat.testBit_or,
      Nat.testBit_two_pow_of_ne (by omega : 7 - j % 8 ≠ 7 - j' % 8)]
    simp
  · exact is_used_congr (set_used_apply_ne l m j _ hb)

theorem is_used_writeU64_out (l : Layout) (m : Mem) (a v j : Nat)
    (hd : BITSET_OFFSET + j / 8 < a ∨ a + 8 ≤ BITSET_OFFSET + j / 8) :
    l.is_used (writeU64 m a v) j = l.is_used m j :=
  is_used_congr (writeU64_apply_out m a v _ hd)

theorem is_used_writeBytesList_out (l : Layout) (m : Mem) (a : Nat)
    (bs : List Nat) (j : Nat)
    (hd : BITSET_OFFSET + j / 8 < a ∨ a + bs.length ≤ BITSET_OFFSET + j / 8) :
    l.is_used (writeBytesList m a bs) j = l.is_used m j :=
  is_used_congr (writeBytesList_apply_out m a bs _ hd)

theorem is_used_zeroMem (l : Layout) (j : Nat) : l.is_used zeroMem j = false := by
  rw [is_used_eq_testBit]
  simp [zeroMem, Nat.zero_testBit]

theorem readLE_set_used_out (l : Layout) (m : Mem) (j b n : Nat)
    (hd : BITSET_OFFSET + j / 8 < b ∨ b + n ≤ BITSET_OFFSET + j / 8) :
    readLE (l.set_used m j) b n = readLE m b n := by
  refine readLE_congr fun k hk => ?_
  exact set_used_apply_ne l m j _ (by omega)

/-! ### Layout offset arithmetic -/

theorem fc_capacity (c : Nat) : (Layout.from_capacity c).capacity = c := rfl

theorem fc_hash1 (c : Nat) :
    (Layout.from_capacity c).hash1_offset = 64 + ((c + 7) / 8 + 7) / 8 * 8 := rfl

theorem fc_hash2 (c : Nat) :
    (Layout.from_capacity c).hash2_offset =
      64 + ((c + 7) / 8 + 7) / 8 * 8 + 8 * c := rfl

theorem fc_hash3 (c : Nat) :
    (Layout.from_capacity c).hash3_offset =
      64 + ((c + 7) / 8 + 7) / 8 * 8 + 8 * c + 8 * c := rfl

theorem fc_value (c : Nat) :
    (Layout.from_capacity c).value_offset =
      64 + ((c + 7) / 8 + 7) / 8 * 8 + 8 * c + 8 * c + 8 * c := rfl

theorem fc_min (c : Nat) :
    (Layout.from_capacity c).min_file_size =
      64 + ((c + 7) / 8 + 7) / 8 * 8 + 8 * c + 8 * c + 8 * c + 8 * c := rfl

theorem bitset_byte_lt_hash1 (c j : Nat) (hj : j < c) :
    BITSET_OFFSET + j / 8 < (Layout.from_capacity c).hash1_offset := by
  rw [fc_hash1, BITSET_OFFSET]
  omega

/-! ### Reading back entries written by `set_entry` -/

theorem PREAMBLE_length : PREAMBLE.length = 48 := rfl

theorem set_entry_bitset_byte (cap j j' : Nat) (m : Mem) (h : List Nat)
    (v : Nat) (hj' : j' < cap) :
    (Layout.from_capacity cap).set_entry m j h v (BITSET_OFFSET + j' / 8) =
      (Layout.from_capacity cap).set_used m j (BITSET_OFFSET + j' / 8) := by
  have hb := bitset_byte_lt_hash1 cap j' hj'
  simp only [Layout.set_entry]
  rw [writeU64_apply_out _ _ _ _ (Or.inl (by
        simp only [fc_hash1, fc_value, U64_SIZE, BITSET_OFFSET] at hb ⊢; omega)),
    writeU64_apply_out _ _ _ _ (Or.inl (by
        simp only [fc_hash1, fc_hash3, U64_SIZE, BITSET_OFFSET] at hb ⊢; omega)),
    writeU64_apply_out _ _ _ _ (Or.inl (by
        simp only [fc_hash1, fc_hash2, U64_SIZE, BITSET_OFFSET] at hb ⊢; omega)),
    writeU64_apply_out _ _ _ _ (Or.inl (by
        simp only [fc_hash1, U64_SIZE, BITSET_OFFSET] at hb ⊢; omega))]

theorem is_used_set_entry_self (cap j : Nat) (m : Mem) (h : List Nat)
    (v : Nat) (hj : j < cap) :
    (Layout.from_capacity cap).is_used
      ((Layout.from_capacity cap).set_entry m j h v) j = true := by
  rw [is_used_congr (set_entry_bitset_byte cap j j m h v hj)]
  exact is_used_set_used_self _ m j

theorem is_used_set_entry_ne (cap j j' : Nat) (m : Mem) (h : List Nat)
    (v : Nat) (hj' : j' < cap) (hne : j' ≠ j) :
    (Layout.from_capacity cap).is_used
      ((Layout.from_capacity cap).set_entry m j h v) j' =
      (Layout.from_capacity cap).is_used m j' := by
  rw [is_used_congr (set_entry_bitset_byte cap j j' m h v hj')]
  exact is_used_set_used_ne _ m j j' hne

theorem get_hash1_set_entry_self (cap j : Nat) (m : Mem) (h : List Nat)
    (v : Nat) (hj : j < cap) :
    (Layout.from_capacity cap).get_hash1
      ((Layout.from_capacity cap).set_entry m j h v) j =
      hash_word h 0 % 2 ^ 64 := by
  simp only [Layout.set_entry, Layout.get_hash1, readU64]
  rw [readLE_writeU64_out _ _ _ _ _ (Or.inl (by
        simp only [fc_hash1, fc_value, U64_SIZE]; omega)),
    readLE_writeU64_out _ _ _ _ _ (Or.inl (by
        simp only [fc_hash1, fc_hash3, U64_SIZE]; omega)),
    readLE_writeU64_out _ _ _ _ _ (Or.inl (by
        simp only [fc_hash1, fc_hash2, U64_SIZE]; omega)),
    readLE_writeU64]

theorem get_hash2_set_entry_self (cap j : Nat) (m : Mem) (h : List Nat)
    (v : Nat) (hj : j < cap) :
    (Layout.from_capacity cap).get_hash2
      ((Layout.from_capacity cap).set_entry m j h v) j =
      hash_word h 1 % 2 ^ 64 := by
  simp only [Layout.set_entry, Layout.get_hash2, readU64]
  rw [readLE_writeU64_out _ _ _ _ _ (Or.inl (by
        simp only [fc_hash2, fc_value, U64_SIZE]; omega)),
    readLE_writeU64_out _ _ _ _ _ (Or.inl (by
        simp only [fc_hash2, fc_hash3, U64_SIZE]; omega)),
    readLE_writeU64]

theorem get_hash3_set_entry_self (cap j : Nat) (m : Mem) (h : List Nat)
    (v : Nat) (hj : j < cap) :
    (Layout.from_capacity cap).get_hash3
      ((Layout.from_capacity cap).set_entry m j h v) j =
      hash_word h 2 % 2 ^ 64 := by
  simp only [Layout.set_entry, Layout.get_hash3, readU64]
  rw [readLE_writeU64_out _ _ _ _ _ (Or.inl (by
        simp only [fc_hash3, fc_value, U64_SIZE]; omega)),
    readLE_writeU64]

theorem get_value_set_entry_self (cap j : Nat) (m : Mem) (h : List Nat)
    (v : Nat) (hj : j < cap) :
    (Layout.from_capacity cap).get_value
      ((Layout.from_capacity cap).set_entry m j h v) j = v % 2 ^ 64 := by
  simp only [Layout.set_entry, Layout.get_value, readU64]
  rw [readLE_writeU64]

theorem get_hash1_set_entry_ne (cap j j' : Nat) (m : Mem) (h : List Nat)
    (v : Nat) (hj : j < cap) (hj' : j' < cap) (hne : j' ≠ j) :
    (Layout.from_capacity cap).get_hash1
      ((Layout.from_capacity cap).set_entry m j h v) j' =
      (Layout.from_capacity cap).get_hash1 m j' := by
  simp only [Layout.set_entry, Layout.get_hash1, readU64]
  rw [readLE_writeU64_out _ _ _ _ _ (Or.inl (by
        simp only [fc_hash1, fc_value, U64_SIZE]; omega)),
    readLE_writeU64_out _ _ _ _ _ (Or.inl (by
        simp only [fc_hash1, fc_hash3, U64_SIZE]; omega)),
    readLE_writeU64_out _ _ _ _ _ (Or.inl (by
        simp only [fc_hash1, fc_hash2, U64_SIZE]; omega)),
    readLE_writeU64_out _ _ _ _ _ (by
        simp only [fc_hash1, U64_SIZE]; omega),
    readLE_set_used_out _ _ _ _ _ (Or.inl (by
        have := bitset_byte_lt_hash1 cap j' hj'
        simp only [fc_hash1, U64_SIZE, BITSET_OFFSET] at this ⊢; omega))]

theorem get_hash2_set_entry_ne (cap j j' : Nat) (m : Mem) (h : List Nat)
    (v : Nat) (hj : j < cap) (hj' : j' < cap) (hne : j' ≠ j) :
    (Layout.from_capacity cap).get_hash2
      ((Layout.from_capacity cap).set_entry m j h v) j' =
      (Layout.from_capacity cap).get_hash2 m j' := by
  simp only [Layout.set_entry, Layout.get_hash2, readU64]
  rw [readLE_writeU64_out _ _ _ _ _ (Or.inl (by
        simp only [fc_hash2, fc_value, U64_SIZE]; omega)),
    readLE_writeU64_out _ _ _ _ _ (Or.inl (by
        simp only [fc_hash2, fc_hash3, U64_SIZE]; omega)),
    readLE_writeU64_out _ _ _ _ _ (by
        simp only [fc_hash2, U64_SIZE]; omega),
    readLE_writeU64_out _ _ _ _ _ (Or.inr (by
        simp only [fc_hash1, fc_hash2, U64_SIZE]; omega)),
    readLE_set_used_out _ _ _ _ _ (Or.inl (by
        have := bitset_byte_lt_hash1 cap j' hj'
        simp only [fc_hash1, fc_hash2, U64_SIZE, BITSET_OFFSET] at this ⊢; omega))]

theorem get_hash3_set_entry_ne (cap j j' : Nat) (m : Mem) (h : List Nat)
    (v : Nat) (hj : j < cap) (hj' : j' < cap) (hne : j' ≠ j) :
    (Layout.from_capacity cap).get_hash3
      ((Layout.from_capacity cap).set_entry m j h v) j' =
      (Layout.from_capacity cap).get_hash3 m j' := by
  simp only [Layout.set_entry, Layout.get_hash3, readU64]
  rw [readLE_writeU64_out _ _ _ _ _ (Or.inl (by
        simp only [fc_hash3, fc_value, U64_SIZE]; omega)),
    readLE_writeU64_out _ _ _ _ _ (by
        simp only [fc_hash3, U64_SIZE]; omega),
    readLE_writeU64_out _ _ _ _ _ (Or.inr (by
        simp only [fc_hash2, fc_hash3, U64_SIZE]; omega)),
    readLE_writeU64_out _ _ _ _ _ (Or.inr (by
        simp only [fc_hash1, fc_hash3, U64_SIZE]; omega)),
    readLE_set_used_out _ _ _ _ _ (Or.inl (by
        have := bitset_byte_lt_hash1 cap j' hj'
        simp only [fc_hash1, fc_hash3, U64_SIZE, BITSET_OFFSET] at this ⊢; omega))]

theorem get_value_set_entry_ne (cap j j' : Nat) (m : Mem) (h : List Nat)
    (v : Nat) (hj : j < cap) (hj' : j' < cap) (hne : j' ≠ j) :
    (Layout.from_capacity cap).get_value
      ((Layout.from_capacity cap).set_entry m j h v) j' =
      (Layout.from_capacity cap).get_value m j' := by
  simp only [Layout.set_entry, Layout.get_value, readU64]
  rw [readLE_writeU64_out _ _ _ _ _ (by
        simp only [fc_value, U64_SIZE]; omega),
    readLE_writeU64_out _ _ _ _ _ (Or.inr (by
        simp only [fc_hash3, fc_value, U64_SIZE]; omega)),
    readLE_writeU64_out _ _ _ _ _ (Or.inr (by
        simp only [fc_hash2, fc_value, U64_SIZE]; omega)),
    readLE_writeU64_out _ _ _ _ _ (Or.inr (by
        simp only [fc_hash1, fc_value, U64_SIZE]; omega)),
    readLE_set_used_out _ _ _ _ _ (Or.inl (by
        have := bitset_byte_lt_hash1 cap j' hj'
        simp only [fc_hash1, fc_value, U64_SIZE, BITSET_OFFSET] at this ⊢; omega))]

theorem get_capacity_set_entry (cap j : Nat) (m : Mem) (h : List Nat) (v : Nat) :
    Layout.get_capacity ((Layout.from_capacity cap).set_entry m j h v) =
      Layout.get_capacity m := by
  simp only [Layout.set_entry, Layout.get_capacity, readU64]
  rw [readLE_writeU64_out _ _ _ _ _ (Or.inl (by
        simp only [fc_value, U64_SIZE, CAPACITY_OFFSET]; omega)),
    readLE_writeU64_out _ _ _ _ _ (Or.inl (by
        simp only [fc_hash3, U64_SIZE, CAPACITY_OFFSET]; omega)),
    readLE_writeU64_out _ _ _ _ _ (Or.inl (by
        simp only [fc_hash2, U64_SIZE, CAPACITY_OFFSET]; omega)),
    readLE_writeU64_out _ _ _ _ _ (Or.inl (by
        simp only [fc_hash1, U64_SIZE, CAPACITY_OFFSET]; omega)),
    readLE_set_used_out _ _ _ _ _ (Or.inr (by
        simp only [CAPACITY_OFFSET, BITSET_OFFSET]; omega))]

/-! ### Effect of `set_preamble` -/

theorem is_used_set_preamble (l : Layout) (m : Mem) (j : Nat) :
    l.is_used (Layout.set_preamble m) j = l.is_used m j := by
  refine is_used_writeBytesList_out l m 0 PREAMBLE j (Or.inr ?_)
  rw [PREAMBLE_length, BITSET_OFFSET]
  omega

theorem readLE_set_preamble (m : Mem) (b n : Nat) (hb : 48 ≤ b) :
    readLE (Layout.set_preamble m) b n = readLE m b n := by
  refine readLE_writeBytesList_out m 0 PREAMBLE b n (Or.inr ?_)
  rw [PREAMBLE_length]
  omega

theorem readBytes_set_preamble (m : Mem) :
    readBytes (Layout.set_preamble m) 0 PREAMBLE_SIZE = PREAMBLE := by
  have := readBytes_writeBytesList m 0 PREAMBLE
  rw [PREAMBLE_length] at this
  exact this

/-! ### Digest bounds and the probe sequence in closed form -/

theorem leVal_lt (l : List Nat) (hb : ∀ b ∈ l, b < 256) :
    leVal l < 256 ^ l.length := by
  induction l with
  | nil => simp [leVal]
  | cons b rest ih =>
    have hb0 : b < 256 := hb b (by simp)
    have hr : leVal rest + 1 ≤ 256 ^ rest.length :=
      ih fun x hx => hb x (by simp [hx])
    have h2 : 256 * (leVal rest + 1) ≤ 256 * 256 ^ rest.length :=
      Nat.mul_le_mul_left 256 hr
    simp only [leVal, List.length_cons, Nat.pow_succ]
    omega

theorem hash_word_lt (h : List Nat) (hb : ∀ b ∈ h, b < 256) (k : Nat) :
    hash_word h k < 2 ^ 64 := by
  have hlen : ((h.drop (8 * k)).take 8).length ≤ 8 := by
    simp [List.length_take]
  have hmem : ∀ b ∈ (h.drop (8 * k)).take 8, b < 256 := fun b hbm =>
    hb b (List.mem_of_mem_drop (List.mem_of_mem_take hbm))
  calc hash_word h k < 256 ^ ((h.drop (8 * k)).take 8).length := leVal_lt _ hmem
    _ ≤ 256 ^ 8 := Nat.pow_le_pow_right (by omega) hlen
    _ = 2 ^ 64 := by norm_num

theorem read_hash_prefix_lt (h : List Nat) (hb : ∀ b ∈ h, b < 256) :
    read_hash_prefix h < 2 ^ 128 := by
  have hlen : (h.take 16).length ≤ 16 := by simp [List.length_take]
  have hmem : ∀ b ∈ h.take 16, b < 256 := fun b hbm => hb b (List.mem_of_mem_take hbm)
  calc read_hash_prefix h < 256 ^ (h.take 16).length := leVal_lt _ hmem
    _ ≤ 256 ^ 16 := Nat.pow_le_pow_right (by omega) hlen
    _ = 2 ^ 128 := by norm_num

theorem hash_prefix_at_closed (h : List Nat) (hb : ∀ b ∈ h, b < 256) (i : Nat) :
    hash_prefix_at h i = read_hash_prefix h * 31 ^ i % 2 ^ 128 := by
  induction i with
  | zero =>
    show read_hash_prefix h = read_hash_prefix h * 31 ^ 0 % 2 ^ 128
    rw [pow_zero, Nat.mul_one, Nat.mod_eq_of_lt (read_hash_prefix_lt h hb)]
  | succ i ih =>
    rw [hash_prefix_at, ih, next_hash_prefix, Nat.mod_mul_mod, pow_succ 31 i,
      ← mul_assoc]

/-! ### The probe walk of `get`: characterization and stabilisation -/

theorem getAux_stop (idx : Index) (h : List Nat) (n : Nat)
    (hstop : (Layout.from_capacity idx.capacity).is_used idx.mem
      (probeSlot h idx.capacity n) = false)
    (hbefore : ∀ i, i < n →
      (Layout.from_capacity idx.capacity).is_used idx.mem
        (probeSlot h idx.capacity i) = true) :
    ∀ fuel i, i ≤ n → n - i < fuel →
      idx.getAux h i fuel =
        ((List.range' i (n - i)).filter
            (fun i2 => idx.hash_matches (probeSlot h idx.capacity i2) h)).map
          (fun i2 => (Layout.from_capacity idx.capacity).get_value idx.mem
            (probeSlot h idx.capacity i2)) := by
  intro fuel
  induction fuel with
  | zero => intro i _ hcontra; omega
  | succ fuel ih =>
    intro i hi hfuel
    by_cases hin : i = n
    · subst hin
      simp [Index.getAux, hstop]
    · have hlt : i < n := by omega
      have hused := hbefore i hlt
      have hsplit : n - i = (n - i - 1) + 1 := by omega
      rw [hsplit, List.range'_succ]
      simp only [Index.getAux, hused, if_true]
      have ihr := ih (i + 1) (by omega) (by omega)
      rw [ihr, show n - (i + 1) = n - i - 1 from by omega]
      by_cases hm : idx.hash_matches (probeSlot h idx.capacity i) h <;>
        simp [hm, List.filter_cons]

theorem get_stop (idx : Index) (h : List Nat) (n : Nat)
    (hstop : (Layout.from_capacity idx.capacity).is_used idx.mem
      (probeSlot h idx.capacity n) = false)
    (hbefore : ∀ i, i < n →
      (Layout.from_capacity idx.capacity).is_used idx.mem
        (probeSlot h idx.capacity i) = true)
    (fuel : Nat) (hfuel : n < fuel) :
    idx.get h fuel =
      ((List.range n).filter
          (fun i2 => idx.hash_matches (probeSlot h idx.capacity i2) h)).map
        (fun i2 => (Layout.from_capacity idx.capacity).get_value idx.mem
          (probeSlot h idx.capacity i2)) := by
  have := getAux_stop idx h n hstop hbefore fuel 0 (by omega) (by omega)
  simpa [Index.get, List.range_eq_range'] using this

/-! ### Facts about freshly created builders and the build phase -/

theorem new_layout (n bs : Nat) :
    (IndexBuilder.new n bs).layout = Layout.from_capacity (n + n / 2) := rfl

theorem new_mem_byte0 (n bs : Nat) : (IndexBuilder.new n bs).mem 0 = 0 := by
  simp only [IndexBuilder.new]
  rw [writeU64_apply_out _ _ _ _ (Or.inl (by rw [CAPACITY_OFFSET]; omega)),
    writeU64_apply_out _ _ _ _ (Or.inl (by rw [BLOCK_SIZE_OFFSET]; omega))]
  rfl

theorem is_used_new (l : Layout) (n bs j : Nat) :
    l.is_used (IndexBuilder.new n bs).mem j = false := by
  simp only [IndexBuilder.new]
  rw [is_used_writeU64_out _ _ _ _ _ (Or.inr (by
      rw [CAPACITY_OFFSET, BITSET_OFFSET]; omega)),
    is_used_writeU64_out _ _ _ _ _ (Or.inr (by
      rw [BLOCK_SIZE_OFFSET, BITSET_OFFSET]; omega)),
    is_used_zeroMem]

theorem get_capacity_new (n bs : Nat) (hcap : n + n / 2 < 2 ^ 64) :
    Layout.get_capacity (IndexBuilder.new n bs).mem = n + n / 2 := by
  simp only [IndexBuilder.new, Layout.get_capacity, Layout.from_item_count,
    fc_capacity]
  exact readU64_writeU64 _ _ _ hcap

theorem set_entry_apply_low (cap j : Nat) (m : Mem) (hsh : List Nat)
    (v x : Nat) (hx : x < 48) :
    (Layout.from_capacity cap).set_entry m j hsh v x = m x := by
  simp only [Layout.set_entry]
  rw [writeU64_apply_out _ _ _ _ (Or.inl (by
      simp only [fc_value, U64_SIZE]; omega)),
    writeU64_apply_out _ _ _ _ (Or.inl (by
      simp only [fc_hash3, U64_SIZE]; omega)),
    writeU64_apply_out _ _ _ _ (Or.inl (by
      simp only [fc_hash2, U64_SIZE]; omega)),
    writeU64_apply_out _ _ _ _ (Or.inl (by
      simp only [fc_hash1, U64_SIZE]; omega)),
    set_used_apply_ne _ _ _ _ (by rw [BITSET_OFFSET]; omega)]

theorem get_capacity_set_preamble (m : Mem) :
    Layout.get_capacity (Layout.set_preamble m) = Layout.get_capacity m := by
  simp only [Layout.get_capacity, readU64]
  exact readLE_set_preamble m _ _ (by rw [CAPACITY_OFFSET]; omega)

theorem get_hash1_set_preamble (cap j : Nat) (m : Mem) :
    (Layout.from_capacity cap).get_hash1 (Layout.set_preamble m) j =
      (Layout.from_capacity cap).get_hash1 m j := by
  simp only [Layout.get_hash1, readU64]
  exact readLE_set_preamble m _ _ (by simp only [fc_hash1, U64_SIZE]; omega)

theorem get_hash2_set_preamble (cap j : Nat) (m : Mem) :
    (Layout.from_capacity cap).get_hash2 (Layout.set_preamble m) j =
      (Layout.from_capacity cap).get_hash2 m j := by
  simp only [Layout.get_hash2, readU64]
  exact readLE_set_preamble m _ _ (by simp only [fc_hash2, U64_SIZE]; omega)

theorem get_hash3_set_preamble (cap j : Nat) (m : Mem) :
    (Layout.from_capacity cap).get_hash3 (Layout.set_preamble m) j =
      (Layout.from_capacity cap).get_hash3 m j := by
  simp only [Layout.get_hash3, readU64]
  exact readLE_set_preamble m _ _ (by simp only [fc_hash3, U64_SIZE]; omega)

theorem get_value_set_preamble (cap j : Nat) (m : Mem) :
    (Layout.from_capacity cap).get_value (Layout.set_preamble m) j =
      (Layout.from_capacity cap).get_value m j := by
  simp only [Layout.get_value, readU64]
  exact readLE_set_preamble m _ _ (by simp only [fc_value, U64_SIZE]; omega)

theorem min_file_size_ge (c : Nat) : 64 ≤ (Layout.from_capacity c).min_file_size := by
  rw [fc_min]
  omega

theorem add_preserves (b b2 : IndexBuilder) (c : Nat)
    (hl : b.layout = Layout.from_capacity c) (hsh : List Nat) (v fuel : Nat)
    (h : b.add hsh v fuel = some b2) :
    b2.mem 0 = b.mem 0 ∧ b2.layout = b.layout ∧ b2.closed = b.closed := by
  simp only [IndexBuilder.add] at h
  by_cases hc : b.closed
  · rw [if_pos hc] at h; cases h
  · rw [if_neg hc] at h
    cases hfs : findFreeSlot b.layout b.mem hsh 0 fuel with
    | none => rw [hfs] at h; cases h
    | some j =>
      rw [hfs, Option.map_some'] at h
      cases h
      refine ⟨?_, rfl, rfl⟩
      rw [hl]
      exact set_entry_apply_low c j b.mem hsh v 0 (by omega)

theorem addAll_preserves (items : List (List Nat × Nat)) :
    ∀ (b b' : IndexBuilder) (c fuel : Nat),
      b.layout = Layout.from_capacity c → addAll b items fuel = some b' →
      b'.mem 0 = b.mem 0 ∧ b'.layout = b.layout ∧ b'.closed = b.closed := by
  induction items with
  | nil =>
    intro b b' c fuel _ h
    cases h
    exact ⟨rfl, rfl, rfl⟩
  | cons it rest ih =>
    intro b b' c fuel hl h
    simp only [addAll] at h
    cases hadd : b.add it.1 it.2 fuel with
    | none => rw [hadd] at h; cases h
    | some b2 =>
      rw [hadd, Option.some_bind] at h
      have h1 := add_preserves b b2 c hl it.1 it.2 fuel hadd
      have h2 := ih b2 b' c fuel (by rw [h1.2.1, hl]) h
      exact ⟨by rw [h2.1, h1.1], by rw [h2.2.1, h1.2.1], by rw [h2.2.2, h1.2.2]⟩

/-! ### Opening a committed file -/

theorem open_file_finished (m : Mem) (c len : Nat)
    (hpre : readBytes m 0 PREAMBLE_SIZE = PREAMBLE)
    (hcap : Layout.get_capacity m = c)
    (hlen : (Layout.from_capacity c).min_file_size ≤ len) :
    Index.open_file m len = OpenResult.ok ⟨m, c⟩ := by
  have h64 := min_file_size_ge c
  simp only [Index.open_file, hcap]
  rw [if_neg (by simp only [PREAMBLE_SIZE]; omega),
    if_neg (by simp [hpre]),
    if_neg (by simp only [CAPACITY_OFFSET, U64_SIZE]; omega),
    if_neg (by omega)]

/-- The result of a single `add` on a fresh builder: the entry lands in the
slot of the first probe step. -/
theorem add_fresh (n bs : Nat) (d : List Nat) (v : Nat) :
    (IndexBuilder.new n bs).add d v 1 =
      some ⟨(Layout.from_capacity (n + n / 2)).set_entry
              (IndexBuilder.new n bs).mem (probeSlot d (n + n / 2) 0) d v,
            Layout.from_capacity (n + n / 2), false⟩ := by
  have hclosed : (IndexBuilder.new n bs).closed = false := rfl
  have hnew := is_used_new (Layout.from_capacity (n + n / 2)) n bs
    (probeSlot d (n + n / 2) 0)
  simp only [IndexBuilder.add, hclosed, Bool.false_eq_true, if_false,
    new_layout, findFreeSlot, fc_capacity, hnew, Option.map_some']

/-! ### Round trip of a single insert (general form) -/

theorem single_insert_round_trip (n bs : Nat) (d : List Nat) (v : Nat)
    (hn : 1 ≤ n) (hcap64 : n + n / 2 < 2 ^ 64)
    (hd : ∀ b ∈ d, b < 256) (hv : v < 2 ^ 64)
    (hs : probeSlot d (n + n / 2) 1 ≠ probeSlot d (n + n / 2) 0)
    (b1 : IndexBuilder) (hb1 : (IndexBuilder.new n bs).add d v 1 = some b1)
    (fuel : Nat) (hfuel : 2 ≤ fuel) :
    Index.open_file b1.finish.mem (Layout.from_item_count n).min_file_size =
      OpenResult.ok ⟨b1.finish.mem, n + n / 2⟩ ∧
    Index.get ⟨b1.finish.mem, n + n / 2⟩ d fuel = [v] := by
  rw [add_fresh] at hb1
  injection hb1 with hb1
  subst hb1
  simp only [IndexBuilder.finish]
  have hcappos : 0 < n + n / 2 := by omega
  have hs0lt : probeSlot d (n + n / 2) 0 < n + n / 2 :=
    Nat.mod_lt _ hcappos
  have hs1lt : probeSlot d (n + n / 2) 1 < n + n / 2 :=
    Nat.mod_lt _ hcappos
  constructor
  · refine open_file_finished _ _ _ (readBytes_set_preamble _) ?_ ?_
    · rw [get_capacity_set_preamble, get_capacity_set_entry,
        get_capacity_new n bs hcap64]
    · exact Nat.le_refl _
  · have hstop : (Layout.from_capacity (n + n / 2)).is_used
        (Layout.set_preamble ((Layout.from_capacity (n + n / 2)).set_entry
          (IndexBuilder.new n bs).mem (probeSlot d (n + n / 2) 0) d v))
        (probeSlot d (n + n / 2) 1) = false := by
      rw [is_used_set_preamble,
        is_used_set_entry_ne _ _ _ _ _ _ hs1lt hs,
        is_used_new]
    have hbefore : ∀ i, i < 1 → (Layout.from_capacity (n + n / 2)).is_used
        (Layout.set_preamble ((Layout.from_capacity (n + n / 2)).set_entry
          (IndexBuilder.new n bs).mem (probeSlot d (n + n / 2) 0) d v))
        (probeSlot d (n + n / 2) i) = true := by
      intro i hi
      have hi0 : i = 0 := by omega
      subst hi0
      rw [is_used_set_preamble, is_used_set_entry_self _ _ _ _ _ hs0lt]
    have hget := get_stop ⟨Layout.set_preamble ((Layout.from_capacity
        (n + n / 2)).set_entry (IndexBuilder.new n bs).mem
        (probeSlot d (n + n / 2) 0) d v), n + n / 2⟩ d 1 hstop hbefore fuel
      (by omega)
    rw [hget, show List.range 1 = [0] from rfl]
    dsimp only
    have hmatch : Index.hash_matches ⟨Layout.set_preamble ((Layout.from_capacity
        (n + n / 2)).set_entry (IndexBuilder.new n bs).mem
        (probeSlot d (n + n / 2) 0) d v), n + n / 2⟩
        (probeSlot d (n + n / 2) 0) d = true := by
      simp only [Index.hash_matches, get_hash1_set_preamble,
        get_hash2_set_preamble, get_hash3_set_preamble,
        get_hash1_set_entry_self _ _ _ _ _ hs0lt,
        get_hash2_set_entry_self _ _ _ _ _ hs0lt,
        get_hash3_set_entry_self _ _ _ _ _ hs0lt,
        Nat.mod_eq_of_lt (hash_word_lt d hd 0),
        Nat.mod_eq_of_lt (hash_word_lt d hd 1),
        Nat.mod_eq_of_lt (hash_word_lt d hd 2),
        beq_self_eq_true, Bool.and_self]
    simp only [List.filter_cons, List.filter_nil, hmatch, if_true,
      List.map_cons, List.map_nil, get_value_set_preamble,
      get_value_set_entry_self _ _ _ _ _ hs0lt, Nat.mod_eq_of_lt hv]

/-- The result of a second `add` with the same digest: the first probe slot is
now used, so the entry lands in the slot of the second probe step. -/
theorem add_second (n bs : Nat) (d : List Nat) (v1 v2 : Nat)
    (hcappos : 0 < n + n / 2)
    (hs : probeSlot d (n + n / 2) 1 ≠ probeSlot d (n + n / 2) 0) :
    (IndexBuilder.add ⟨(Layout.from_capacity (n + n / 2)).set_entry
        (IndexBuilder.new n bs).mem (probeSlot d (n + n / 2) 0) d v1,
        Layout.from_capacity (n + n / 2), false⟩ d v2 2) =
      some ⟨(Layout.from_capacity (n + n / 2)).set_entry
              ((Layout.from_capacity (n + n / 2)).set_entry
                (IndexBuilder.new n bs).mem (probeSlot d (n + n / 2) 0) d v1)
              (probeSlot d (n + n / 2) 1) d v2,
            Layout.from_capacity (n + n / 2), false⟩ := by
  have hs0lt : probeSlot d (n + n / 2) 0 < n + n / 2 := Nat.mod_lt _ hcappos
  have hs1lt : probeSlot d (n + n / 2) 1 < n + n / 2 := Nat.mod_lt _ hcappos
  have hused0 : (Layout.from_capacity (n + n / 2)).is_used
      ((Layout.from_capacity (n + n / 2)).set_entry (IndexBuilder.new n bs).mem
        (probeSlot d (n + n / 2) 0) d v1) (probeSlot d (n + n / 2) 0) = true :=
    is_used_set_entry_self _ _ _ _ _ hs0lt
  have hfree1 : (Layout.from_capacity (n + n / 2)).is_used
      ((Layout.from_capacity (n + n / 2)).set_entry (IndexBuilder.new n bs).mem
        (probeSlot d (n + n / 2) 0) d v1) (probeSlot d (n + n / 2) 1) = false := by
    rw [is_used_set_entry_ne _ _ _ _ _ _ hs1lt hs, is_used_new]
  simp only [IndexBuilder.add, findFreeSlot, fc_capacity, hused0, hfree1,
    Bool.false_eq_true, if_false, if_true, Option.map_some']

/-! ### Round trip of two inserts with the same digest (general form) -/

theorem double_insert_round_trip (n bs : Nat) (d : List Nat) (v1 v2 : Nat)
    (hn : 1 ≤ n) (hcap64 : n + n / 2 < 2 ^ 64)
    (hd : ∀ b ∈ d, b < 256) (hv1 : v1 < 2 ^ 64) (hv2 : v2 < 2 ^ 64)
    (hs10 : probeSlot d (n + n / 2) 1 ≠ probeSlot d (n + n / 2) 0)
    (hs20 : probeSlot d (n + n / 2) 2 ≠ probeSlot d (n + n / 2) 0)
    (hs21 : probeSlot d (n + n / 2) 2 ≠ probeSlot d (n + n / 2) 1)
    (b2 : IndexBuilder)
    (hb : ((IndexBuilder.new n bs).add d v1 1).bind
        (fun b => b.add d v2 2) = some b2)
    (fuel : Nat) (hfuel : 3 ≤ fuel) :
    Index.open_file b2.finish.mem (Layout.from_item_count n).min_file_size =
      OpenResult.ok ⟨b2.finish.mem, n + n / 2⟩ ∧
    Index.get ⟨b2.finish.mem, n + n / 2⟩ d fuel = [v1, v2] := by
  have hcappos : 0 < n + n / 2 := by omega
  have hs0lt : probeSlot d (n + n / 2) 0 < n + n / 2 := Nat.mod_lt _ hcappos
  have hs1lt : probeSlot d (n + n / 2) 1 < n + n / 2 := Nat.mod_lt _ hcappos
  have hs2lt : probeSlot d (n + n / 2) 2 < n + n / 2 := Nat.mod_lt _ hcappos
  rw [add_fresh, Option.some_bind, add_second n bs d v1 v2 hcappos hs10] at hb
  injection hb with hb
  subst hb
  simp only [IndexBuilder.finish]
  constructor
  · refine open_file_finished _ _ _ (readBytes_set_preamble _) ?_ ?_
    · rw [get_capacity_set_preamble, get_capacity_set_entry,
        get_capacity_set_entry, get_capacity_new n bs hcap64]
    · exact Nat.le_refl _
  · have hstop : (Layout.from_capacity (n + n / 2)).is_used
        (Layout.set_preamble ((Layout.from_capacity (n + n / 2)).set_entry
          ((Layout.from_capacity (n + n / 2)).set_entry (IndexBuilder.new n bs).mem
            (probeSlot d (n + n / 2) 0) d v1)
          (probeSlot d (n + n / 2) 1) d v2))
        (probeSlot d (n + n / 2) 2) = false := by
      rw [is_used_set_preamble,
        is_used_set_entry_ne _ _ _ _ _ _ hs2lt hs21,
        is_used_set_entry_ne _ _ _ _ _ _ hs2lt hs20,
        is_used_new]
    have hbefore : ∀ i, i < 2 → (Layout.from_capacity (n + n / 2)).is_used
        (Layout.set_preamble ((Layout.from_capacity (n + n / 2)).set_entry
          ((Layout.from_capacity (n + n / 2)).set_entry (IndexBuilder.new n bs).mem
            (probeSlot d (n + n / 2) 0) d v1)
          (probeSlot d (n + n / 2) 1) d v2))
        (probeSlot d (n + n / 2) i) = true := by
      intro i hi
      rw [is_used_set_preamble]
      match i, hi with
      | 0, _ =>
        rw [is_used_set_entry_ne _ _ _ _ _ _ hs0lt (Ne.symm hs10),
          is_used_set_entry_self _ _ _ _ _ hs0lt]
      | 1, _ =>
        rw [is_used_set_entry_self _ _ _ _ _ hs1lt]
    have hget := get_stop ⟨Layout.set_preamble ((Layout.from_capacity
        (n + n / 2)).set_entry ((Layout.from_capacity (n + n / 2)).set_entry
          (IndexBuilder.new n bs).mem (probeSlot d (n + n / 2) 0) d v1)
        (probeSlot d (n + n / 2) 1) d v2), n + n / 2⟩ d 2 hstop hbefore fuel
      (by omega)
    rw [hget, show List.range 2 = [0, 1] from rfl]
    dsimp only
    have hmatch0 : Index.hash_matches ⟨Layout.set_preamble
        ((Layout.from_capacity (n + n / 2)).set_entry
          ((Layout.from_capacity (n + n / 2)).set_entry (IndexBuilder.new n bs).mem
            (probeSlot d (n + n / 2) 0) d v1)
          (probeSlot d (n + n / 2) 1) d v2), n + n / 2⟩
        (probeSlot d (n + n / 2) 0) d = true := by
      simp only [Index.hash_matches, get_hash1_set_preamble,
        get_hash2_set_preamble, get_hash3_set_preamble,
        get_hash1_set_entry_ne _ _ _ _ _ _ hs1lt hs0lt (Ne.symm hs10),
        get_hash2_set_entry_ne _ _ _ _ _ _ hs1lt hs0lt (Ne.symm hs10),
        get_hash3_set_entry_ne _ _ _ _ _ _ hs1lt hs0lt (Ne.symm hs10),
        get_hash1_set_entry_self _ _ _ _ _ hs0lt,
        get_hash2_set_entry_self _ _ _ _ _ hs0lt,
        get_hash3_set_entry_self _ _ _ _ _ hs0lt,
        Nat.mod_eq_of_lt (hash_word_lt d hd 0),
        Nat.mod_eq_of_lt (hash_word_lt d hd 1),
        Nat.mod_eq_of_lt (hash_word_lt d hd 2),
        beq_self_eq_true, Bool.and_self]
    have hmatch1 : Index.hash_matches ⟨Layout.set_preamble
        ((Layout.from_capacity (n + n / 2)).set_entry
          ((Layout.from_capacity (n + n / 2)).set_entry (IndexBuilder.new n bs).mem
            (probeSlot d (n + n / 2) 0) d v1)
          (probeSlot d (n + n / 2) 1) d v2), n + n / 2⟩
        (probeSlot d (n + n / 2) 1) d = true := by
      simp only [Index.hash_matches, get_hash1_set_preamble,
        get_hash2_set_preamble, get_hash3_set_preamble,
        get_hash1_set_entry_self _ _ _ _ _ hs1lt,
        get_hash2_set_entry_self _ _ _ _ _ hs1lt,
        get_hash3_set_entry_self _ _ _ _ _ hs1lt,
        Nat.mod_eq_of_lt (hash_word_lt d hd 0),
        Nat.mod_eq_of_lt (hash_word_lt d hd 1),
        Nat.mod_eq_of_lt (hash_word_lt d hd 2),
        beq_self_eq_true, Bool.and_self]
    simp only [List.filter_cons, List.filter_nil, hmatch0, hmatch1, if_true,
      List.map_cons, List.map_nil, get_value_set_preamble,
      get_value_set_entry_ne _ _ _ _ _ _ hs1lt hs0lt (Ne.symm hs10),
      get_value_set_entry_self _ _ _ _ _ hs0lt,
      get_value_set_entry_self _ _ _ _ _ hs1lt,
      Nat.mod_eq_of_lt hv1, Nat.mod_eq_of_lt hv2]

/-! ### The positional-voting loop of the `find` subcommand
(src/cache_guess_mapping.rs) -/

/-- The block-size parameters of `find`: `fs_block_size` is
`512 * filesystem_block_bytes`, `cache_block_size` is `512 * cache_block_size`
sectors. -/
structure FindParams where
  fs_block_size : Nat
  cache_block_size : Nat

/-- `fs_blocks_per_cache_block = cache_block_size / fs_block_size`. -/
def fs_blocks_per_cache_block (p : FindParams) : Nat :=
  p.cache_block_size / p.fs_block_size

/-- `*matches.entry(origin_cache_block).or_insert(0) += 1`, on an association
list kept in first-insertion order (standing in for the `HashMap`, whose
iteration order is unspecified). -/
def bumpVote : List (Nat × Nat) → Nat → List (Nat × Nat)
  | [], c => [(c, 1)]
  | (c', k) :: rest, c =>
    if c' = c then (c', k + 1) :: rest else (c', k) :: bumpVote rest c

/-- The vote count recorded for a candidate in the tally (0 when absent). -/
def lookupVotes : List (Nat × Nat) → Nat → Nat
  | [], _ => 0
  | (c', k) :: rest, c => if c' = c then k else lookupVotes rest c

/-- The body of the inner `for match_offset in matches_vec` loop: a
positionally consistent offset votes for its origin cache block, any other
offset bumps the fake-match counter. -/
def processOffset (p : FindParams) (fs_block : Nat)
    (st : List (Nat × Nat) × Nat) (match_offset : Nat) :
    List (Nat × Nat) × Nat :=
  let origin_fs_block := match_offset / p.fs_block_size
  let origin_cache_block := match_offset / p.cache_block_size
  let origin_local_fs_block := origin_fs_block % fs_blocks_per_cache_block p
  if origin_local_fs_block = fs_block then
    (bumpVote st.1 origin_cache_block, st.2)
  else (st.1, st.2 + 1)

/-- `hash_block`'s byte offset for a given block number:
`offset = block_size * block`. -/
def hash_block_offset (block block_size : Nat) : Nat := block_size * block

/-- One iteration of the outer `for cache_block in 0..cache_total_blocks`
loop: the tally and the fake-match counter start from `(∅, 0)` anew for every
cache block.  `offsetsAt b` abstracts `index.get(&hash)` for the digest
`hash_block(cache_device, b, fs_block_size)` of cache fs-block number `b`
(the missing-key case of the `HashMap` is the empty list). -/
def processCacheBlock (p : FindParams) (offsetsAt : Nat → List Nat)
    (cache_block : Nat) : List (Nat × Nat) × Nat :=
  (List.range (fs_blocks_per_cache_block p)).foldl
    (fun st fs_block =>
      (offsetsAt (cache_block * fs_blocks_per_cache_block p + fs_block)).foldl
        (processOffset p fs_block) st)
    ([], 0)

/-- `match_vec.sort_by_key(|(_, count)| Reverse(count))`: stable sort by
descending vote count. -/
def sortByVotesDesc (l : List (Nat × Nat)) : List (Nat × Nat) :=
  List.insertionSort (fun a b => b.2 ≤ a.2) l

/-- The candidate list reported for one cache block, in report order. -/
def cacheBlockReport (p : FindParams) (offsetsAt : Nat → List Nat)
    (cache_block : Nat) : List (Nat × Nat) :=
  sortByVotesDesc (processCacheBlock p offsetsAt cache_block).1

/-- All `(position, offset)` pairs examined for one cache block, in loop
order. -/
def blockPairs (p : FindParams) (offsetsAt : Nat → List Nat) (c : Nat) :
    List (Nat × Nat) :=
  (List.range (fs_blocks_per_cache_block p)).flatMap fun k =>
    (offsetsAt (c * fs_blocks_per_cache_block p + k)).map fun off => (k, off)

/-- A pair `(k, off)` votes for candidate `x` when
`off / cacheBlockSize = x` and `(off / fsBlockSize) % fsBlocksPerCacheBlock = k`. -/
def votesFor (p : FindParams) (x : Nat) (pr : Nat × Nat) : Bool :=
  (pr.2 / p.fs_block_size % fs_blocks_per_cache_block p == pr.1) &&
    (pr.2 / p.cache_block_size == x)

/-- A pair `(k, off)` is a fake match when its position is inconsistent. -/
def isFakeMatch (p : FindParams) (pr : Nat × Nat) : Bool :=
  pr.2 / p.fs_block_size % fs_blocks_per_cache_block p != pr.1

theorem lookupVotes_bumpVote (l : List (Nat × Nat)) (c x : Nat) :
    lookupVotes (bumpVote l c) x =
      lookupVotes l x + if c = x then 1 else 0 := by
  induction l with
  | nil =>
    by_cases hx : c = x <;> simp [bumpVote, lookupVotes, hx]
  | cons pr rest ih =>
    obtain ⟨c', k⟩ := pr
    by_cases hc : c' = c
    · subst hc
      by_cases hx : c' = x <;> simp [bumpVote, lookupVotes, hx]
    · simp only [bumpVote, if_neg hc, lookupVotes]
      by_cases hx : c' = x
      · subst hx
        have : ¬ c = c' := fun hcc => hc hcc.symm
        simp [this, lookupVotes]
      · simp [hx, ih]

theorem foldl_flatMap_eq {α β σ : Type} (l : List α) (g : α → List β)
    (f : σ → β → σ) (init : σ) :
    (l.flatMap g).foldl f init =
      l.foldl (fun st a => (g a).foldl f st) init := by
  induction l generalizing init with
  | nil => rfl
  | cons a rest ih =>
    simp only [List.flatMap_cons, List.foldl_append, List.foldl_cons, ih]

theorem processCacheBlock_eq_foldl_pairs (p : FindParams)
    (offsetsAt : Nat → List Nat) (c : Nat) :
    processCacheBlock p offsetsAt c =
      (blockPairs p offsetsAt c).foldl
        (fun st pr => processOffset p pr.1 st pr.2) ([], 0) := by
  rw [processCacheBlock, blockPairs, foldl_flatMap_eq]
  congr 1
  funext st k
  rw [List.foldl_map]

theorem foldl_processOffset_votes (p : FindParams) (pairs : List (Nat × Nat)) :
    ∀ (st : List (Nat × Nat) × Nat) (x : Nat),
      lookupVotes
          (pairs.foldl (fun st pr => processOffset p pr.1 st pr.2) st).1 x =
        lookupVotes st.1 x + pairs.countP (votesFor p x) := by
  induction pairs with
  | nil => intro st x; simp
  | cons pr rest ih =>
    intro st x
    rw [List.foldl_cons, ih, List.countP_cons]
    have hstep : lookupVotes (processOffset p pr.1 st pr.2).1 x =
        lookupVotes st.1 x + if votesFor p x pr then 1 else 0 := by
      by_cases hcons :
          pr.2 / p.fs_block_size % fs_blocks_per_cache_block p = pr.1
      · rw [processOffset]
        simp only [if_pos hcons]
        rw [lookupVotes_bumpVote]
        have hv : votesFor p x pr = (pr.2 / p.cache_block_size == x) := by
          simp [votesFor, hcons]
        rw [hv]
        by_cases hx : pr.2 / p.cache_block_size = x <;> simp [hx]
      · rw [processOffset]
        simp only [if_neg hcons]
        have hv : votesFor p x pr = false := by
          simp only [votesFor, Bool.and_eq_false_iff]
          left
          simpa using hcons
        simp [hv]
    omega

theorem foldl_processOffset_fake (p : FindParams) (pairs : List (Nat × Nat)) :
    ∀ (st : List (Nat × Nat) × Nat),
      (pairs.foldl (fun st pr => processOffset p pr.1 st pr.2) st).2 =
        st.2 + pairs.countP (isFakeMatch p) := by
  induction pairs with
  | nil => intro st; simp
  | cons pr rest ih =>
    intro st
    rw [List.foldl_cons, ih, List.countP_cons]
    have hstep : (processOffset p pr.1 st pr.2).2 =
        st.2 + if isFakeMatch p pr then 1 else 0 := by
      by_cases hcons :
          pr.2 / p.fs_block_size % fs_blocks_per_cache_block p = pr.1
      · rw [processOffset]
        simp only [if_pos hcons]
        simp [isFakeMatch, hcons]
      · rw [processOffset]
        simp only [if_neg hcons]
        have : isFakeMatch p pr = true := by simpa [isFakeMatch] using hcons
        simp [this]
    omega

instance voteOrderTotal : IsTotal (Nat × Nat) (fun a b => b.2 ≤ a.2) :=
  ⟨fun a b => le_total b.2 a.2⟩

instance voteOrderTrans : IsTrans (Nat × Nat) (fun a b => b.2 ≤ a.2) :=
  ⟨fun _ _ _ h1 h2 => le_trans h2 h1⟩

theorem cacheBlockReport_sorted (p : FindParams) (offsetsAt : Nat → List Nat)
    (c : Nat) :
    (cacheBlockReport p offsetsAt c).Sorted (fun a b => b.2 ≤ a.2) :=
  List.sorted_insertionSort _ _

theorem cacheBlockReport_perm (p : FindParams) (offsetsAt : Nat → List Nat)
    (c : Nat) :
    (cacheBlockReport p offsetsAt c).Perm
      (processCacheBlock p offsetsAt c).1 :=
  List.perm_insertionSort _ _

theorem hash_block_offset_consistent (p : FindParams) (c k : Nat)
    (hdvd : p.fs_block_size ∣ p.cache_block_size)
    (hpos : 0 < p.fs_block_size) :
    hash_block_offset (c * fs_blocks_per_cache_block p + k) p.fs_block_size =
      c * p.cache_block_size + k * p.fs_block_size := by
  obtain ⟨q, hq⟩ := hdvd
  rw [hash_block_offset, fs_blocks_per_cache_block, hq,
    Nat.mul_div_cancel_left _ hpos]
  ring

/-! ### Concrete digests and builders used by witnesses and counterexamples -/

/-- A 20-byte digest whose probe prefix is 1; at capacity 7 its probe slots
are 1, 3, 2, … -/
def digestOne : List Nat := 1 :: List.replicate 19 0

/-- The all-zero 20-byte digest: its probe prefix is 0, so every probe step
lands in slot 0. -/
def digestZero : List Nat := List.replicate 20 0

/-- A 20-byte digest whose probe slots at capacity 6 are 3, 5, 5, 1, …: the
third probe step revisits slot 5 before the walk reaches unused slot 1. -/
def digestRevisit : List Nat :=
  [69, 11, 52, 172, 189, 153, 217, 86, 113, 238, 41, 215, 138, 176, 113, 135,
   0, 0, 0, 0]

/-- A digest with zero probe prefix (slot 0 at every probe step) and third
hash word 1. -/
def digestLoopA : List Nat := List.replicate 16 0 ++ [1, 0, 0, 0]

/-- A digest with zero probe prefix and third hash word 2: same probe chain as
`digestLoopA` but a different stored hash. -/
def digestLoopB : List Nat := List.replicate 16 0 ++ [2, 0, 0, 0]

/-- Builder with the single entry `(digestOne, 42)` at item count 5
(capacity 7). -/
def builderW : IndexBuilder :=
  ((IndexBuilder.new 5 8192).add digestOne 42 1).getD (IndexBuilder.new 5 8192)

/-- Builder with the single entry `(digestZero, 7)` at item count 2
(capacity 3). -/
def builderZ : IndexBuilder :=
  ((IndexBuilder.new 2 8192).add digestZero 7 1).getD (IndexBuilder.new 2 8192)

/-- Builder with `(digestRevisit, 1)` then `(digestRevisit, 2)` at item
count 4 (capacity 6). -/
def builderR : IndexBuilder :=
  (((IndexBuilder.new 4 8192).add digestRevisit 1 1).bind
      (fun b => b.add digestRevisit 2 2)).getD (IndexBuilder.new 4 8192)

/-- Builder with `(digestOne, 11)` then `(digestOne, 22)` at item count 5
(capacity 7). -/
def builderD : IndexBuilder :=
  (((IndexBuilder.new 5 8192).add digestOne 11 1).bind
      (fun b => b.add digestOne 22 2)).getD (IndexBuilder.new 5 8192)

/-- As `builderD` with the two values inserted in the opposite order. -/
def builderD2 : IndexBuilder :=
  (((IndexBuilder.new 5 8192).add digestOne 22 1).bind
      (fun b => b.add digestOne 11 2)).getD (IndexBuilder.new 5 8192)

/-- Builder with the single entry `(digestLoopA, 9)` at item count 2
(capacity 3): slot 0 is used by an entry whose hash differs from
`digestLoopB`. -/
def builderL : IndexBuilder :=
  ((IndexBuilder.new 2 8192).add digestLoopA 9 1).getD (IndexBuilder.new 2 8192)

/-- Builder with one entry added and `finish()` never called. -/
def builderU : IndexBuilder :=
  (addAll (IndexBuilder.new 2 8192) [(digestOne, 5)] 1).getD
    (IndexBuilder.new 2 8192)

/-! ### The claims -/

/-- C1: for every index state and 20-byte digest, `get` yields exactly the
value words of the slots that lie on the digest's probe sequence strictly
before the first unused slot (step `n` below) and whose stored three hash
words equal the query digest, in probe order; a used slot with a different
stored hash is skipped, and no slot at or beyond the first unused probe step
is ever yielded (any fuel beyond the stopping step gives the same list). -/
theorem c1_get_yields_matching_prefix (idx : Index) (d : List Nat) (n : Nat)
    (hstop : (Layout.from_capacity idx.capacity).is_used idx.mem
      (probeSlot d idx.capacity n) = false)
    (hbefore : ∀ i, i < n →
      (Layout.from_capacity idx.capacity).is_used idx.mem
        (probeSlot d idx.capacity i) = true)
    (fuel : Nat) (hfuel : n < fuel) :
    idx.get d fuel =
      ((List.range n).filter
          (fun i => idx.hash_matches (probeSlot d idx.capacity i) d)).map
        (fun i => (Layout.from_capacity idx.capacity).get_value idx.mem
          (probeSlot d idx.capacity i)) :=
  get_stop idx d n hstop hbefore fuel hfuel

/-- Witness for C1 on a committed one-entry index: the walk stops at probe
step 1 and yields exactly the matching slot of step 0. -/
theorem c1_witness :
    Index.get ⟨builderW.finish.mem, 7⟩ digestOne 2 =
      ((List.range 1).filter
          (fun i => Index.hash_matches ⟨builderW.finish.mem, 7⟩
            (probeSlot digestOne 7 i) digestOne)).map
        (fun i => (Layout.from_capacity 7).get_value builderW.finish.mem
          (probeSlot digestOne 7 i)) :=
  c1_get_yields_matching_prefix ⟨builderW.finish.mem, 7⟩ digestOne 1
    (by decide)
    (fun i hi => by
      have h0 : i = 0 := by omega
      subst h0
      decide)
    2 (by omega)

/-- Fuel monotonicity of the probe walk: the yields within `fuel` probe steps
are a prefix of the yields within `fuel + 1` steps, so the Rust iterator's
output extends the result at every finite fuel. -/
theorem getAux_prefix_mono (idx : Index) (d : List Nat) :
    ∀ (fuel i : Nat), idx.getAux d i fuel <+: idx.getAux d i (fuel + 1) := by
  intro fuel
  induction fuel with
  | zero => intro i; exact List.nil_prefix
  | succ fuel ih =>
    intro i
    show idx.getAux d i (fuel + 1) <+: idx.getAux d i (fuel + 1 + 1)
    rw [Index.getAux, Index.getAux]
    by_cases hu : (Layout.from_capacity idx.capacity).is_used idx.mem
        (probeSlot d idx.capacity i)
    · simp only [hu, if_true]
      obtain ⟨t, ht⟩ := ih (i + 1)
      exact ⟨t, by rw [List.append_assoc, ht]⟩
    · simp only [hu, Bool.false_eq_true, if_false]
      exact List.nil_prefix

/-- C2 counterexample: insert the all-zero digest with value 7 at item count 2
(capacity 3), commit, reopen.  Every probe step of the zero digest lands in
slot 0, so the reopened index yields 7 at probe step 0 *and again* at probe
step 1 — `get` does not yield the value exactly once, and (slot 0 being used
with a matching hash at every step) the walk never reaches an unused slot. -/
theorem c2_counterexample :
    Index.open_file builderZ.finish.mem (Layout.from_item_count 2).min_file_size =
      OpenResult.ok ⟨builderZ.finish.mem, 3⟩ ∧
    Index.get ⟨builderZ.finish.mem, 3⟩ digestZero 2 = [7, 7] := by
  constructor
  · exact open_file_finished _ 3 _ (by decide) (by decide) (by decide)
  · decide

/-- C2 (amended): the round trip holds for every digest whose second probe
step differs from its first modulo the capacity: insert `(d, v)` into a fresh
index of item count `n ≥ 1`, `finish()`, reopen — `open` succeeds with the
stored capacity and `get d` yields exactly `[v]` (for every fuel that covers
the two probe steps).  For a digest whose probe sequence revisits its own
slot before reaching an unused one (for example the all-zero digest), `get`
yields `v` once per revisit instead of exactly once. -/
theorem c2_round_trip_amended (n bs : Nat) (d : List Nat) (v : Nat)
    (hn : 1 ≤ n) (hcap64 : n + n / 2 < 2 ^ 64)
    (hd : ∀ b ∈ d, b < 256) (hv : v < 2 ^ 64)
    (hs : probeSlot d (n + n / 2) 1 ≠ probeSlot d (n + n / 2) 0)
    (b1 : IndexBuilder) (hb1 : (IndexBuilder.new n bs).add d v 1 = some b1)
    (fuel : Nat) (hfuel : 2 ≤ fuel) :
    Index.open_file b1.finish.mem (Layout.from_item_count n).min_file_size =
      OpenResult.ok ⟨b1.finish.mem, n + n / 2⟩ ∧
    Index.get ⟨b1.finish.mem, n + n / 2⟩ d fuel = [v] :=
  single_insert_round_trip n bs d v hn hcap64 hd hv hs b1 hb1 fuel hfuel

/-- Witness for C2: digest with probe prefix 1 at capacity 7 (probe slots 1
then 3), value 42. -/
theorem c2_witness :
    Index.open_file builderW.finish.mem (Layout.from_item_count 5).min_file_size =
      OpenResult.ok ⟨builderW.finish.mem, 7⟩ ∧
    Index.get ⟨builderW.finish.mem, 7⟩ digestOne 2 = [42] :=
  c2_round_trip_amended 5 8192 digestOne 42 (by omega) (by decide) (by decide)
    (by decide) (by decide) builderW rfl 2 (by omega)

/-- C3 counterexample: insert `(digestRevisit, 1)` then `(digestRevisit, 2)`
at item count 4 (capacity 6) and commit.  The probe slots of `digestRevisit`
are 3, 5, 5, 1, …: the two entries land in slots 3 and 5, but the walk of
`get` visits slot 5 again at probe step 2 before stopping at unused slot 1,
so the committed index yields `[1, 2, 2]` — value 2 is yielded twice, not
exactly once.  (The walk does terminate: probe step 3 hits an unused slot,
and any larger fuel gives the same list.) -/
theorem c3_counterexample :
    Index.open_file builderR.finish.mem (Layout.from_item_count 4).min_file_size =
      OpenResult.ok ⟨builderR.finish.mem, 6⟩ ∧
    (Layout.from_capacity 6).is_used builderR.finish.mem
      (probeSlot digestRevisit 6 3) = false ∧
    Index.get ⟨builderR.finish.mem, 6⟩ digestRevisit 4 = [1, 2, 2] ∧
    Index.get ⟨builderR.finish.mem, 6⟩ digestRevisit 10 = [1, 2, 2] := by
  refine ⟨open_file_finished _ 6 _ (by decide) (by decide) (by decide),
    by decide, by decide, by decide⟩

/-- C3 (amended): inserting the same digest twice always creates a second,
separate entry further along the probe chain (no existing-key check), and for
every digest whose first three probe steps visit pairwise distinct slots,
`get` yields both values exactly once each, in insertion order — `[v1, v2]`
when `v1` was inserted first and `[v2, v1]` when `v2` was.  For a digest whose
probe walk revisits an occupied slot before reaching an unused one, the
revisited entry's value is yielded once per visit. -/
theorem c3_duplicate_digest_amended (n bs : Nat) (d : List Nat) (v1 v2 : Nat)
    (hn : 1 ≤ n) (hcap64 : n + n / 2 < 2 ^ 64)
    (hd : ∀ b ∈ d, b < 256) (hv1 : v1 < 2 ^ 64) (hv2 : v2 < 2 ^ 64)
    (hs10 : probeSlot d (n + n / 2) 1 ≠ probeSlot d (n + n / 2) 0)
    (hs20 : probeSlot d (n + n / 2) 2 ≠ probeSlot d (n + n / 2) 0)
    (hs21 : probeSlot d (n + n / 2) 2 ≠ probeSlot d (n + n / 2) 1)
    (b2 b2' : IndexBuilder)
    (hb : ((IndexBuilder.new n bs).add d v1 1).bind
        (fun b => b.add d v2 2) = some b2)
    (hb' : ((IndexBuilder.new n bs).add d v2 1).bind
        (fun b => b.add d v1 2) = some b2')
    (fuel : Nat) (hfuel : 3 ≤ fuel) :
    Index.get ⟨b2.finish.mem, n + n / 2⟩ d fuel = [v1, v2] ∧
    Index.get ⟨b2'.finish.mem, n + n / 2⟩ d fuel = [v2, v1] :=
  ⟨(double_insert_round_trip n bs d v1 v2 hn hcap64 hd hv1 hv2 hs10 hs20 hs21
      b2 hb fuel hfuel).2,
   (double_insert_round_trip n bs d v2 v1 hn hcap64 hd hv2 hv1 hs10 hs20 hs21
      b2' hb' fuel hfuel).2⟩

/-- Witness for C3: digest with probe slots 1, 3, 2 at capacity 7, values 11
and 22 inserted in both orders. -/
theorem c3_witness :
    Index.get ⟨builderD.finish.mem, 7⟩ digestOne 3 = [11, 22] ∧
    Index.get ⟨builderD2.finish.mem, 7⟩ digestOne 3 = [22, 11] :=
  c3_duplicate_digest_amended 5 8192 digestOne 11 22 (by omega) (by decide)
    (by decide) (by decide) (by decide) (by decide) (by decide) (by decide)
    builderD builderD2 rfl rfl 3 (by omega)

/-- Modelled from the spec (refinement companion for C4): interpret the first
16 digest bytes as an unsigned little-endian integer `p0`; the probe value at
step `i` is `p0 · 31^i` with wrapping (mod `2^128`) multiplication, and the
candidate slot at step `i` is that value modulo the capacity. -/
def specProbeSlot (h : List Nat) (capacity i : Nat) : Nat :=
  leVal (h.take 16) * 31 ^ i % 2 ^ 128 % capacity

/-- C4: the probe sequence computed by `read_hash_indices` — used by both
`IndexBuilder::add` and `Index::get`, which call the same function — agrees
with the spec's closed form: `p0` is the little-endian value of the first 16
digest bytes, `p(i+1) = p(i) · 31 mod 2^128`, and the candidate slot at step
`i` is `p(i) mod capacity`. -/
theorem c4_probe_sequence (d : List Nat) (hd : ∀ b ∈ d, b < 256)
    (capacity i : Nat) :
    probeSlot d capacity i = specProbeSlot d capacity i := by
  rw [probeSlot, specProbeSlot, hash_prefix_at_closed d hd i, read_hash_prefix]

/-- Witness for C4 at a concrete digest, capacity 7, probe step 5. -/
theorem c4_witness : probeSlot digestRevisit 7 5 = specProbeSlot digestRevisit 7 5 :=
  c4_probe_sequence digestRevisit (by decide) 7 5

theorem mem_fst_bumpVote (l : List (Nat × Nat)) (c x : Nat) :
    x ∈ (bumpVote l c).map Prod.fst ↔ x ∈ l.map Prod.fst ∨ x = c := by
  induction l with
  | nil => simp [bumpVote]
  | cons pr rest ih =>
    obtain ⟨c', k⟩ := pr
    by_cases hc : c' = c
    · subst hc
      simp only [bumpVote, if_pos rfl, if_true, List.map_cons, List.mem_cons]
      tauto
    · simp only [bumpVote, if_neg hc, List.map_cons, List.mem_cons, ih]
      tauto

theorem bumpVote_keys_nodup (l : List (Nat × Nat)) (c : Nat)
    (h : (l.map Prod.fst).Nodup) : ((bumpVote l c).map Prod.fst).Nodup := by
  induction l with
  | nil => simp [bumpVote]
  | cons pr rest ih =>
    obtain ⟨c', k⟩ := pr
    rw [List.map_cons, List.nodup_cons] at h
    by_cases hc : c' = c
    · subst hc
      simp only [bumpVote, if_pos rfl, if_true, List.map_cons, List.nodup_cons]
      exact h
    · simp only [bumpVote, if_neg hc, List.map_cons, List.nodup_cons]
      refine ⟨?_, ih h.2⟩
      rw [mem_fst_bumpVote]
      rintro (hx | hx)
      · exact h.1 hx
      · exact hc hx

theorem tally_keys_nodup (p : FindParams) (offsetsAt : Nat → List Nat)
    (c : Nat) : ((processCacheBlock p offsetsAt c).1.map Prod.fst).Nodup := by
  rw [processCacheBlock_eq_foldl_pairs]
  have main : ∀ (pairs : List (Nat × Nat)) (st : List (Nat × Nat) × Nat),
      (st.1.map Prod.fst).Nodup →
      (((pairs.foldl (fun st pr => processOffset p pr.1 st pr.2) st)).1.map
        Prod.fst).Nodup := by
    intro pairs
    induction pairs with
    | nil => intro st h; exact h
    | cons pr rest ih =>
      intro st h
      rw [List.foldl_cons]
      refine ih _ ?_
      rw [processOffset]
      by_cases hcons :
          pr.2 / p.fs_block_size % fs_blocks_per_cache_block p = pr.1
      · simp only [if_pos hcons]
        exact bumpVote_keys_nodup _ _ h
      · simp only [if_neg hcons]
        exact h
  exact main _ ([], 0) (by simp)

theorem lookupVotes_eq_of_mem (l : List (Nat × Nat))
    (hnd : (l.map Prod.fst).Nodup) :
    ∀ pr ∈ l, lookupVotes l pr.1 = pr.2 := by
  induction l with
  | nil => intro pr h; cases h
  | cons q rest ih =>
    intro pr hm
    obtain ⟨c', k⟩ := q
    rw [List.map_cons, List.nodup_cons] at hnd
    rcases List.mem_cons.mp hm with h | h
    · subst h
      simp [lookupVotes]
    · have hne : c' ≠ pr.1 := fun he => by
        refine hnd.1 ?_
        rw [he]
        exact List.mem_map.mpr ⟨pr, h, rfl⟩
      simp only [lookupVotes, if_neg hne]
      exact ih hnd.2 pr h

/-- C5: the positional-voting loop of `find`.  For cache block `c` and each
sub-block position `k`, the digested byte range starts at
`c·cacheBlockSize + k·fsBlockSize` (conjunct 1, using that the cache block
size is a multiple of the filesystem block size, as the loop assumes); for
every offset the index returns, the per-cache-block tally — reset to empty for
each cache block by construction of `processCacheBlock` — records for every
candidate exactly the number of pairs `(k, offset)` with
`offset / cacheBlockSize = candidate` and
`(offset / fsBlockSize) % fsBlocksPerCacheBlock = k` (conjunct 2), the
fake-match counter counts exactly the positionally inconsistent pairs
(conjunct 3), and the report lists exactly the tally's candidates sorted by
vote count descending (conjuncts 4 and 5), each reported with its vote count
— the numerator of the printed `votes / fsBlocksPerCacheBlock` match
percentage (conjunct 6). -/
theorem c5_positional_voting (p : FindParams) (offsetsAt : Nat → List Nat)
    (c : Nat) (hdvd : p.fs_block_size ∣ p.cache_block_size)
    (hpos : 0 < p.fs_block_size) :
    (∀ k, hash_block_offset (c * fs_blocks_per_cache_block p + k)
        p.fs_block_size = c * p.cache_block_size + k * p.fs_block_size) ∧
    (∀ x, lookupVotes (processCacheBlock p offsetsAt c).1 x =
        (blockPairs p offsetsAt c).countP (votesFor p x)) ∧
    (processCacheBlock p offsetsAt c).2 =
        (blockPairs p offsetsAt c).countP (isFakeMatch p) ∧
    (cacheBlockReport p offsetsAt c).Sorted (fun a b => b.2 ≤ a.2) ∧
    (cacheBlockReport p offsetsAt c).Perm (processCacheBlock p offsetsAt c).1 ∧
    (∀ e ∈ cacheBlockReport p offsetsAt c,
        e.2 = (blockPairs p offsetsAt c).countP (votesFor p e.1)) := by
  refine ⟨fun k => hash_block_offset_consistent p c k hdvd hpos, ?_, ?_, ?_, ?_, ?_⟩
  · intro x
    rw [processCacheBlock_eq_foldl_pairs]
    have := foldl_processOffset_votes p (blockPairs p offsetsAt c) ([], 0) x
    simpa [lookupVotes] using this
  · rw [processCacheBlock_eq_foldl_pairs]
    have := foldl_processOffset_fake p (blockPairs p offsetsAt c) ([], 0)
    simpa using this
  · exact cacheBlockReport_sorted p offsetsAt c
  · exact cacheBlockReport_perm p offsetsAt c
  · intro e he
    have hmem : e ∈ (processCacheBlock p offsetsAt c).1 :=
      (cacheBlockReport_perm p offsetsAt c).mem_iff.mp he
    have h1 := lookupVotes_eq_of_mem _ (tally_keys_nodup p offsetsAt c) e hmem
    have h2 : lookupVotes (processCacheBlock p offsetsAt c).1 e.1 =
        (blockPairs p offsetsAt c).countP (votesFor p e.1) := by
      rw [processCacheBlock_eq_foldl_pairs]
      have := foldl_processOffset_votes p (blockPairs p offsetsAt c) ([], 0) e.1
      simpa [lookupVotes] using this
    rw [← h1, h2]

/-- A small concrete offsets map used by the C5 witness. -/
def offsetsW : Nat → List Nat := fun b => [2 * b, 7]

/-- Witness for C5 at filesystem block size 2, cache block size 6
(3 filesystem blocks per cache block), cache block 1. -/
theorem c5_witness :
    hash_block_offset (1 * fs_blocks_per_cache_block ⟨2, 6⟩ + 2) 2 =
      1 * 6 + 2 * 2 ∧
    lookupVotes (processCacheBlock ⟨2, 6⟩ offsetsW 1).1 1 =
      (blockPairs ⟨2, 6⟩ offsetsW 1).countP (votesFor ⟨2, 6⟩ 1) ∧
    (processCacheBlock ⟨2, 6⟩ offsetsW 1).2 =
      (blockPairs ⟨2, 6⟩ offsetsW 1).countP (isFakeMatch ⟨2, 6⟩) :=
  ⟨(c5_positional_voting ⟨2, 6⟩ offsetsW 1 (by decide) (by decide)).1 2,
   (c5_positional_voting ⟨2, 6⟩ offsetsW 1 (by decide) (by decide)).2.1 1,
   (c5_positional_voting ⟨2, 6⟩ offsetsW 1 (by decide) (by decide)).2.2.1⟩

/-- C6 counterexample: at item count 3 the derived capacity is 4, and
`2 · 4 < 3 · 3`: the capacity is strictly smaller than 1.5 × 3, so after
inserting 3 entries the load factor is 3/4, which exceeds 2/3. -/
theorem c6_counterexample :
    (Layout.from_item_count 3).capacity = 4 ∧
    2 * (Layout.from_item_count 3).capacity < 3 * 3 := by
  decide

/-- C6 (amended): the capacity derived at creation is `n + n/2` (integer
division), so `capacity(1000) = 1500` and `capacity(3) = 4`; this satisfies
`3·n ≤ 2·capacity + 1`, and for even `n` the capacity is exactly `1.5·n`, so
the load factor `n / capacity` is at most 2/3; for odd `n` the capacity falls
short of `1.5·n` by one half and the 2/3 load-factor bound fails (as the
counterexample at `n = 3` shows). -/
theorem c6_capacity_law (n : Nat) :
    (Layout.from_item_count n).capacity = n + n / 2 ∧
    (Layout.from_item_count 1000).capacity = 1500 ∧
    (Layout.from_item_count 3).capacity = 4 ∧
    3 * n ≤ 2 * (Layout.from_item_count n).capacity + 1 ∧
    (n % 2 = 0 → 2 * (Layout.from_item_count n).capacity = 3 * n) := by
  have hc : (Layout.from_item_count n).capacity = n + n / 2 := rfl
  refine ⟨hc, rfl, rfl, by rw [hc]; omega, fun he => by rw [hc]; omega⟩

/-- Witness for C6 at even item count 4: capacity 6 equals exactly 1.5 × 4. -/
theorem c6_witness : 2 * (Layout.from_item_count 4).capacity = 3 * 4 :=
  (c6_capacity_law 4).2.2.2.2 (by decide)

/-- The probe walk of a digest on an index state reaches an unused slot at
some step (exactly the condition under which `Index::get`'s iterator
terminates). -/
def ProbeEnds (idx : Index) (d : List Nat) : Prop :=
  ∃ i, (Layout.from_capacity idx.capacity).is_used idx.mem
    (probeSlot d idx.capacity i) = false

/-- C7 counterexample: a committed index built by inserting `digestLoopA`
(probe prefix 0) at item count 2 (capacity 3), queried with `digestLoopB`,
whose probe prefix is also 0 but whose stored hash differs.  Every probe step
of `digestLoopB` lands in slot 0, which is used, so the probe walk never
reaches an unused slot: `get` does not terminate on this state and digest
(it yields nothing, forever). -/
theorem c7_counterexample :
    ¬ ProbeEnds ⟨builderL.finish.mem, 3⟩ digestLoopB := by
  rintro ⟨i, hi⟩
  have hp0 : ∀ j, hash_prefix_at digestLoopB j = 0 := by
    intro j
    induction j with
    | zero => decide
    | succ j ih => rw [hash_prefix_at, ih]; decide
  have hp : probeSlot digestLoopB 3 i = 0 := by
    rw [probeSlot, hp0]
  rw [show (Index.mk builderL.finish.mem 3).capacity = 3 from rfl, hp] at hi
  have hused : (Layout.from_capacity 3).is_used builderL.finish.mem 0 = true := by
    decide
  rw [show (Index.mk builderL.finish.mem 3).mem = builderL.finish.mem from rfl,
    hused] at hi
  cases hi

/-- C7 (amended): whenever some probe step of the digest hits an unused slot,
the probe walk of `get` terminates there or earlier: the result is the same
for every fuel beyond that step, i.e. the iterator's output is finite.  The
walk fails to terminate exactly when every probe step hits a used slot, which
a crafted committed index can realise (see the counterexample), so termination
is not unconditional. -/
theorem c7_get_terminates (idx : Index) (d : List Nat) (n : Nat)
    (hn : (Layout.from_capacity idx.capacity).is_used idx.mem
      (probeSlot d idx.capacity n) = false)
    (fuel : Nat) (hfuel : n + 1 ≤ fuel) :
    idx.get d fuel = idx.get d (n + 1) := by
  classical
  have hex : ∃ i, (Layout.from_capacity idx.capacity).is_used idx.mem
      (probeSlot d idx.capacity i) = false := ⟨n, hn⟩
  have hstop := Nat.find_spec hex
  have hmin : Nat.find hex ≤ n := Nat.find_min' hex hn
  have hbefore : ∀ i, i < Nat.find hex →
      (Layout.from_capacity idx.capacity).is_used idx.mem
        (probeSlot d idx.capacity i) = true := by
    intro i hi
    have hne := Nat.find_min hex hi
    cases hcase : (Layout.from_capacity idx.capacity).is_used idx.mem
        (probeSlot d idx.capacity i) with
    | false => exact absurd hcase hne
    | true => rfl
  rw [get_stop idx d (Nat.find hex) hstop hbefore fuel (by omega),
    get_stop idx d (Nat.find hex) hstop hbefore (n + 1) (by omega)]

/-- Witness for C7: on the committed one-entry index of `builderL`,
`digestOne`'s first probe step already hits an unused slot, so the result at
any fuel equals the result at fuel 1. -/
theorem c7_witness :
    Index.get ⟨builderL.finish.mem, 3⟩ digestOne 5 =
      Index.get ⟨builderL.finish.mem, 3⟩ digestOne 1 :=
  c7_get_terminates ⟨builderL.finish.mem, 3⟩ digestOne 0 (by decide) 5
    (by omega)

/-- Modelled from the spec (refinement companions for C8): `ceil(capacity/8)`
and rounding up to a multiple of 8 bytes, written the way the spec states
them. -/
def specCeilDiv (a b : Nat) : Nat := if a % b = 0 then a / b else a / b + 1

/-- Modelled from the spec: round up to the next multiple of 8. -/
def specRoundUp8 (y : Nat) : Nat := if y % 8 = 0 then y else y + (8 - y % 8)

/-- C8 counterexample: at capacity 0 the bitset is empty and all four arrays
have zero bytes, so `hash1Offset = bitsetOffset = 64` (and all later offsets
coincide as well): the strict chain
`bitsetOffset < hash1Offset < … < minFileSize` fails. -/
theorem c8_counterexample :
    (Layout.from_capacity 0).hash1_offset = BITSET_OFFSET ∧
    ¬ BITSET_OFFSET < (Layout.from_capacity 0).hash1_offset := by
  decide

/-- C8 (amended): for every capacity the offsets satisfy the claimed formulas
(`hash1Offset = bitsetOffset + ceil(capacity/8)` rounded up to 8 bytes, each
further offset adding `8·capacity`) and are all multiples of 8; the strict
chain `bitsetOffset < hash1Offset < hash2Offset < hash3Offset < valueOffset <
minFileSize` holds for every capacity of at least 1 (at capacity 0 all five
offsets collapse onto `bitsetOffset`). -/
theorem c8_layout_monotone (c : Nat) :
    ((Layout.from_capacity c).hash1_offset =
        BITSET_OFFSET + specRoundUp8 (specCeilDiv c 8) ∧
      (Layout.from_capacity c).hash2_offset =
        (Layout.from_capacity c).hash1_offset + 8 * c ∧
      (Layout.from_capacity c).hash3_offset =
        (Layout.from_capacity c).hash2_offset + 8 * c ∧
      (Layout.from_capacity c).value_offset =
        (Layout.from_capacity c).hash3_offset + 8 * c ∧
      (Layout.from_capacity c).min_file_size =
        (Layout.from_capacity c).value_offset + 8 * c) ∧
    (BITSET_OFFSET % 8 = 0 ∧
      (Layout.from_capacity c).hash1_offset % 8 = 0 ∧
      (Layout.from_capacity c).hash2_offset % 8 = 0 ∧
      (Layout.from_capacity c).hash3_offset % 8 = 0 ∧
      (Layout.from_capacity c).value_offset % 8 = 0 ∧
      (Layout.from_capacity c).min_file_size % 8 = 0) ∧
    (1 ≤ c →
      BITSET_OFFSET < (Layout.from_capacity c).hash1_offset ∧
      (Layout.from_capacity c).hash1_offset <
        (Layout.from_capacity c).hash2_offset ∧
      (Layout.from_capacity c).hash2_offset <
        (Layout.from_capacity c).hash3_offset ∧
      (Layout.from_capacity c).hash3_offset <
        (Layout.from_capacity c).value_offset ∧
      (Layout.from_capacity c).value_offset <
        (Layout.from_capacity c).min_file_size) := by
  refine ⟨⟨?_, ?_, ?_, ?_, ?_⟩, ⟨?_, ?_, ?_, ?_, ?_, ?_⟩,
      fun hc => ⟨?_, ?_, ?_, ?_, ?_⟩⟩ <;>
    simp only [fc_hash1, fc_hash2, fc_hash3, fc_value, fc_min, BITSET_OFFSET,
      U64_SIZE, specRoundUp8, specCeilDiv] <;>
    first
      | omega
      | (split_ifs <;> omega)

/-- Witness for C8 at capacity 7: the strict offset chain holds. -/
theorem c8_witness :
    BITSET_OFFSET < (Layout.from_capacity 7).hash1_offset ∧
    (Layout.from_capacity 7).hash1_offset < (Layout.from_capacity 7).hash2_offset ∧
    (Layout.from_capacity 7).hash2_offset < (Layout.from_capacity 7).hash3_offset ∧
    (Layout.from_capacity 7).hash3_offset < (Layout.from_capacity 7).value_offset ∧
    (Layout.from_capacity 7).value_offset < (Layout.from_capacity 7).min_file_size :=
  (c8_layout_monotone 7).2.2 (by omega)

/-- C9: a builder that performed any sequence of successful `add` calls but
never called `finish()` leaves byte 0 of the file at its zero-filled initial
value, so the first 48 bytes never equal the format marker, and opening the
file (at its true size, `min_file_size`) fails with `CorruptIndex` no matter
how many entries were added. -/
theorem c9_uncommitted_rejected (n bs fuel : Nat)
    (items : List (List Nat × Nat)) (b : IndexBuilder)
    (hb : addAll (IndexBuilder.new n bs) items fuel = some b) :
    readBytes b.mem 0 PREAMBLE_SIZE ≠ PREAMBLE ∧
    Index.open_file b.mem (Layout.from_item_count n).min_file_size =
      OpenResult.corruptIndex := by
  obtain ⟨h0, hl, hc⟩ := addAll_preserves items (IndexBuilder.new n bs) b
    (n + n / 2) fuel (new_layout n bs) hb
  have hbyte0 : b.mem 0 = 0 := by rw [h0, new_mem_byte0]
  have hne : readBytes b.mem 0 PREAMBLE_SIZE ≠ PREAMBLE := by
    intro he
    have h1 : (readBytes b.mem 0 PREAMBLE_SIZE)[0]? = some (b.mem 0) := by
      simp [readBytes, PREAMBLE_SIZE]
    rw [he] at h1
    have h2 : (PREAMBLE)[0]? = some 73 := rfl
    rw [h2] at h1
    injection h1 with h1
    omega
  refine ⟨hne, ?_⟩
  have hmin : 64 ≤ (Layout.from_item_count n).min_file_size :=
    min_file_size_ge (n + n / 2)
  simp only [Index.open_file]
  rw [if_neg (by simp only [PREAMBLE_SIZE]; omega), if_pos hne]

/-- Witness for C9: one entry added, never finished; the file opens as
`CorruptIndex`. -/
theorem c9_witness :
    Index.open_file builderU.mem (Layout.from_item_count 2).min_file_size =
      OpenResult.corruptIndex :=
  (c9_uncommitted_rejected 2 8192 1 [(digestOne, 5)] builderU rfl).2

/-- C10 counterexample: a 48-byte file of zero bytes is shorter than 64
bytes, yet `Index::open` returns the `CorruptIndex` error value — the
preamble comparison is in bounds for any file of at least 48 bytes, so such
files do not panic. -/
theorem c10_counterexample :
    Index.open_file zeroMem 48 = OpenResult.corruptIndex := rfl

/-- C10 (amended): a file shorter than 48 bytes always aborts with an
out-of-bounds panic (the preamble slice `mmap[..48]` is out of bounds), not
an error value; a file of length at least 48 and below 64 bytes panics only
when its first 48 bytes equal the format marker (the capacity read
`mmap[56..64]` is then out of bounds), and returns the `CorruptIndex` error
value when they do not.  The documented error reporting applies in full only
to files of at least 64 bytes. -/
theorem c10_short_open_behaviour (m : Mem) (len : Nat) :
    (len < 48 → Index.open_file m len = OpenResult.oobPanic) ∧
    (48 ≤ len → len < 64 → readBytes m 0 PREAMBLE_SIZE = PREAMBLE →
      Index.open_file m len = OpenResult.oobPanic) ∧
    (48 ≤ len → len < 64 → readBytes m 0 PREAMBLE_SIZE ≠ PREAMBLE →
      Index.open_file m len = OpenResult.corruptIndex) := by
  refine ⟨?_, ?_, ?_⟩
  · intro h
    simp only [Index.open_file]
    rw [if_pos (by simp only [PREAMBLE_SIZE]; omega)]
  · intro h1 h2 hpre
    simp only [Index.open_file]
    rw [if_neg (by simp only [PREAMBLE_SIZE]; omega), if_neg (by simp [hpre]),
      if_pos (by simp only [CAPACITY_OFFSET, U64_SIZE]; omega)]
  · intro h1 h2 hpre
    simp only [Index.open_file]
    rw [if_neg (by simp only [PREAMBLE_SIZE]; omega), if_pos hpre]

/-- Witness for C10: a 40-byte file panics on the preamble slice. -/
theorem c10_witness : Index.open_file zeroMem 40 = OpenResult.oobPanic :=
  (c10_short_open_behaviour zeroMem 40).1 (by omega)
